import Mathlib

-- Verification of the Logic Mill engine (src/mill.c): a single-tape Turing
-- machine interpreter.  The core pieces embedded here are the symbol table
-- (symtable_insert), the instruction parser (mill_parse_instruction /
-- mill_parse_program, a character-level state machine), the tape loader
-- (mill_read_tape), the execution engine (mill_run) and the tape renderer
-- (mill_print_tape).  Wide characters (wchar_t) are modelled as natural
-- numbers (code points); wide strings as lists of code points; size_t
-- arithmetic `(x - 1) % size` resp. `(pos + dp) % size` with dp = -1 is
-- modelled as `(x + (size - 1)) % size`, which agrees with the C semantics
-- because the tape size 2^20 divides 2^64.

def MILL_TAPE_SIZE : Nat := 0x100000

def MILL_STATES_MAX : Nat := 1024

def MILL_STATE_MAX : Nat := 32

def MILL_INSTR_MAX : Nat := 0x10000

def MILL_STEPS_MAX : Nat := 1000000

-- iswspace for the portable C whitespace class: \t \n \v \f \r and blank.
def isSpace (c : Nat) : Bool :=
  c == 9 || c == 10 || c == 11 || c == 12 || c == 13 || c == 32

structure MillInstr where
  state_in : Nat
  char_in : Nat
  state_out : Nat
  char_out : Nat
  move : Nat
  deriving DecidableEq

-- SymTable: `symbols` holds the interned names in insertion order (the id of
-- a name is its index); `datasize` counts the wide characters consumed from
-- the backing buffer symdata[MILL_STATES_MAX * (MILL_STATE_MAX + 1)]
-- (each stored name takes its length plus one terminator).
structure SymTable where
  symbols : List (List Nat)
  datasize : Nat
  deriving DecidableEq

structure MillProgram where
  symtable : SymTable
  syminit : Nat
  symhalt : Nat
  instructions : List MillInstr
  deriving DecidableEq

-- MillTape: the circular buffer plus head position.  The buffer is a total
-- function on Nat; every reachable buffer is 0 (the blank sentinel) outside
-- [0, MILL_TAPE_SIZE).
structure MillTape where
  buf : Nat → Nat
  pos : Nat

inductive ParseErr where
  | symbolLimit
  | bufferExhausted
  | symbolTooLong
  | invalidMove
  | expectingToken
  | unexpectedToken
  | invalidState
  | tooManyInstructions
  | outOfFuel
  deriving DecidableEq

-- parse_headmove: the token must be exactly one character, either L (76)
-- or R (82).  Any other token is the InvalidMove parse error (none here).
def parse_headmove (text : List Nat) : Option Nat :=
  match text with
  | [c] => if c = 76 ∨ c = 82 then some c else none
  | _ => none

-- Linear scan of the symbol list, first match wins (wcscmp loop).
def symtable_lookup : List (List Nat) → List Nat → Option Nat
  | [], _ => none
  | x :: rest, s =>
    if x = s then some 0
    else (symtable_lookup rest s).map (fun i => i + 1)

-- symtable_insert: return the id of an already present name, otherwise
-- append it, failing when the table holds MILL_STATES_MAX names or when the
-- character data buffer lacks room for the name plus its terminator.
def symtable_insert (t : SymTable) (symbol : List Nat) :
    Except ParseErr (SymTable × Nat) :=
  match symtable_lookup t.symbols symbol with
  | some i => .ok (t, i)
  | none =>
    if MILL_STATES_MAX ≤ t.symbols.length then .error .symbolLimit
    else if MILL_STATES_MAX * (MILL_STATE_MAX + 1) <
        t.datasize + (symbol.length + 1) then .error .bufferExhausted
    else .ok (⟨t.symbols ++ [symbol], t.datasize + (symbol.length + 1)⟩,
        t.symbols.length)

-- Result of mill_parse_instruction: a parse error (return -1), clean end of
-- input with no instruction (return 0), or one instruction plus the not yet
-- consumed rest of the input (return 1).
inductive InstrOut where
  | perr (e : ParseErr)
  | done (t : SymTable)
  | one (i : MillInstr) (t : SymTable) (rest : List Nat)

-- The switch on the lexer state after the read loop hit end of input.
def parse_instr_end (t : SymTable) (data : MillInstr) (token : List Nat)
    (state : Nat) : InstrOut :=
  if state = 0 ∨ state = 20 then .done t
  else if 1 ≤ state ∧ state ≤ 8 then .perr .expectingToken
  else if state = 9 then
    match parse_headmove token with
    | none => .perr .invalidMove
    | some m => .one { data with move := m } t []
  else if state = 11 then .perr .unexpectedToken
  else if state = 10 ∨ state = 12 ∨ state = 100 then .one data t []
  else .perr .invalidState

-- One loop body iteration of mill_parse_instruction on the character c:
-- either the next lexer configuration or a parse error that aborts.
inductive StepOut where
  | cont (t : SymTable) (d : MillInstr) (tok : List Nat) (st : Nat)
  | fail (e : ParseErr)

-- The switch on the lexer state for one read character.  States 0, 2, 4,
-- 6, 8 skip whitespace before a field; 1, 5 accumulate a state name
-- (inserting it on the closing whitespace); 3, 7 close a one-character
-- symbol field (the literal _ = 95 maps to the blank sentinel 0); 9
-- accumulates the move token (splitting a trailing //); 10-12 handle the
-- trailing comment; 20 skips a full-line comment; 100 ends the instruction.
-- In state 11 the C code also appends c to the token before erroring; the
-- token is only used in the diagnostic message, which is not modelled.
def parse_instr_step (t : SymTable) (data : MillInstr) (token : List Nat)
    (state : Nat) (c : Nat) : StepOut :=
  match state with
  | 0 =>
    if isSpace c then .cont t data token 0
    else .cont t data (token ++ [c]) 1
  | 1 =>
    if isSpace c then
      match symtable_insert t token with
      | .error e => .fail e
      | .ok (t1, sid) => .cont t1 { data with state_in := sid } [] 2
    else if MILL_STATE_MAX ≤ token.length then .fail .symbolTooLong
    else if token ++ [c] = [47, 47] then .cont t data [] 20
    else .cont t data (token ++ [c]) 1
  | 2 =>
    if isSpace c then .cont t data token 2
    else .cont t data (token ++ [c]) 3
  | 3 =>
    if isSpace c then
      .cont t
        { data with char_in :=
            if token.headD 0 = 95 then 0 else token.headD 0 }
        [] 4
    else .fail .symbolTooLong
  | 4 =>
    if isSpace c then .cont t data token 4
    else .cont t data (token ++ [c]) 5
  | 5 =>
    if isSpace c then
      match symtable_insert t token with
      | .error e => .fail e
      | .ok (t1, sid) => .cont t1 { data with state_out := sid } [] 6
    else if MILL_STATE_MAX ≤ token.length then .fail .symbolTooLong
    else .cont t data (token ++ [c]) 5
  | 6 =>
    if isSpace c then .cont t data token 6
    else .cont t data (token ++ [c]) 7
  | 7 =>
    if isSpace c then
      .cont t
        { data with char_out :=
            if token.headD 0 = 95 then 0 else token.headD 0 }
        [] 8
    else .fail .symbolTooLong
  | 8 =>
    if isSpace c then .cont t data token 8
    else .cont t data (token ++ [c]) 9
  | 9 =>
    if isSpace c then
      match parse_headmove token with
      | none => .fail .invalidMove
      | some m =>
        .cont t { data with move := m } [] (if c = 10 then 100 else 10)
    else if MILL_STATE_MAX ≤ token.length then .fail .symbolTooLong
    else if 3 ≤ (token ++ [c]).length ∧ c = 47 ∧
        token.getLast? = some 47 then
      match parse_headmove token.dropLast with
      | none => .fail .invalidMove
      | some m => .cont t { data with move := m } token.dropLast 12
    else .cont t data (token ++ [c]) 9
  | 10 =>
    if c = 10 then .cont t data token 100
    else if c = 47 then .cont t data (token ++ [c]) 11
    else if isSpace c then .cont t data token 10
    else .fail .unexpectedToken
  | 11 =>
    if c = 47 then .cont t data token 12
    else .fail .unexpectedToken
  | 12 =>
    if c = 10 then .cont t data token 100
    else .cont t data token 12
  | 20 =>
    if c = 10 then .cont t data token 0
    else .cont t data token 20
  | _ => .fail .invalidState

-- mill_parse_instruction: the read loop runs while state < 100 and input
-- remains, stepping through parse_instr_step; at end of input the final
-- switch parse_instr_end runs; at state 100 the instruction is complete and
-- the unconsumed input is handed back.
def parse_instr_loop (t : SymTable) (data : MillInstr) (token : List Nat)
    (state : Nat) (input : List Nat) : InstrOut :=
  if state = 100 then .one data t input
  else
    match input with
    | [] => parse_instr_end t data token state
    | c :: rest =>
      match parse_instr_step t data token state c with
      | .fail e => .perr e
      | .cont t1 d1 tok1 st1 => parse_instr_loop t1 d1 tok1 st1 rest

-- mill_parse_program's accumulation loop.  The fuel bounds the number of
-- instructions read; since every returned instruction consumes at least one
-- input character, input.length + 1 calls never exhaust it (outOfFuel is an
-- artifact of the embedding, never a behaviour of the C loop).
def parse_program_loop : SymTable → List MillInstr → List Nat → Nat →
    Except ParseErr (SymTable × List MillInstr)
  | _, _, _, 0 => .error .outOfFuel
  | t, acc, input, fuel + 1 =>
    match parse_instr_loop t ⟨0, 0, 0, 0, 0⟩ [] 0 input with
    | .perr e => .error e
    | .done t1 => .ok (t1, acc)
    | .one i t1 rest =>
      if MILL_INSTR_MAX ≤ acc.length then .error .tooManyInstructions
      else parse_program_loop t1 (acc ++ [i]) rest fuel

-- mill_parse_program: pre-intern INIT ([73,78,73,84]) and HALT
-- ([72,65,76,84]) into the fresh table, then read instructions to the end.
def mill_parse_program (input : List Nat) : Except ParseErr MillProgram :=
  match symtable_insert ⟨[], 0⟩ [73, 78, 73, 84] with
  | .error e => .error e
  | .ok (t1, syminit) =>
    match symtable_insert t1 [72, 65, 76, 84] with
    | .error e => .error e
    | .ok (t2, symhalt) =>
      match parse_program_loop t2 [] input (input.length + 1) with
      | .error e => .error e
      | .ok (t3, instrs) => .ok ⟨t3, syminit, symhalt, instrs⟩

-- fgetws(buf, MILL_TAPE_SIZE, file): read at most MILL_TAPE_SIZE - 1
-- characters, stopping after (and keeping) a newline.  Cells past the read
-- line keep the blank sentinel (the static tape buffer is zero-initialized).
def firstLine_go : Nat → List Nat → List Nat
  | _, [] => []
  | 0, _ :: _ => []
  | n + 1, c :: rest => if c = 10 then [c] else c :: firstLine_go n rest

def firstLine (input : List Nat) : List Nat :=
  firstLine_go (MILL_TAPE_SIZE - 1) input

-- mill_read_tape: fgetws fails (NULL) exactly when no character can be
-- read; otherwise the line is stored from index 0, head position 0.
def mill_read_tape (input : List Nat) : Option MillTape :=
  match input with
  | [] => none
  | _ :: _ => some ⟨fun i => (firstLine input).getD i 0, 0⟩

-- tape->buf[pos] = c, as a function update.
def writeTape (buf : Nat → Nat) (pos v : Nat) : Nat → Nat :=
  fun i => if i = pos then v else buf i

inductive RunOutcome where
  | Halted
  | Stalled (state : Nat) (c : Nat)
  | TimedOut
  | InvalidHeadMove
  deriving DecidableEq

structure Config where
  buf : Nat → Nat
  pos : Nat
  state : Nat

structure RunResult where
  outcome : RunOutcome
  steps : Nat
  tape : MillTape

-- The instruction scan of mill_run: first i with instructions[i] matching
-- (state, c); the accumulator is the C loop index.
def mill_find : List MillInstr → Nat → Nat → Nat → Option (Nat × MillInstr)
  | [], _, _, _ => none
  | instr :: rest, state, c, i =>
    if instr.state_in = state ∧ instr.char_in = c then some (i, instr)
    else mill_find rest state c (i + 1)

-- pos = (pos + dp) % tape->size with dp = -1 for L (76) and +1 otherwise,
-- the size_t wraparound folded into + (MILL_TAPE_SIZE - 1).
def mill_move (pos : Nat) (move : Nat) : Nat :=
  (pos + (if move = 76 then MILL_TAPE_SIZE - 1 else 1)) % MILL_TAPE_SIZE

inductive IterOut where
  | next (cfg : Config)
  | stop (o : RunOutcome) (buf : Nat → Nat) (pos : Nat)

-- One iteration of the run loop body: read, scan, write, move, then the
-- halt check and the pos == prev stall check.  In the stalled outcome c is
-- the symbol as read; the stderr message renders a blank c as the DSL
-- literal _ (95), which is presentation only.
def mill_iter (prog : MillProgram) (cfg : Config) : IterOut :=
  let prev := cfg.pos
  let c := cfg.buf cfg.pos
  match mill_find prog.instructions cfg.state c 0 with
  | none => .stop (.Stalled cfg.state c) cfg.buf cfg.pos
  | some (_, instr) =>
    let buf1 := writeTape cfg.buf cfg.pos instr.char_out
    let state1 := instr.state_out
    if instr.move = 76 ∨ instr.move = 82 then
      let pos1 := mill_move cfg.pos instr.move
      if state1 = prog.symhalt then .stop .Halted buf1 pos1
      else if pos1 = prev then .stop (.Stalled state1 c) buf1 pos1
      else .next ⟨buf1, pos1, state1⟩
    else .stop .InvalidHeadMove buf1 cfg.pos

-- The for loop of mill_run: t counts completed steps, fuel is
-- MILL_STEPS_MAX - t; on fuel exhaustion *steps = MILL_STEPS_MAX and the
-- outcome is the timeout (return 1), else *steps = t + 1.
def mill_run_loop (prog : MillProgram) : Config → Nat → Nat → RunResult
  | cfg, _, 0 => ⟨.TimedOut, MILL_STEPS_MAX, ⟨cfg.buf, cfg.pos⟩⟩
  | cfg, t, fuel + 1 =>
    match mill_iter prog cfg with
    | .stop o buf pos => ⟨o, t + 1, ⟨buf, pos⟩⟩
    | .next cfg1 => mill_run_loop prog cfg1 (t + 1) fuel

def initCfg (prog : MillProgram) (tape : MillTape) : Config :=
  ⟨tape.buf, tape.pos, prog.syminit⟩

def mill_run (prog : MillProgram) (tape : MillTape) : RunResult :=
  mill_run_loop prog (initCfg prog tape) 0 MILL_STEPS_MAX

-- The continue branch of one iteration, as a partial step function, and its
-- k-fold application: mill_steps prog cfg k is the configuration after k
-- completed, non-terminating steps (none when the run stops earlier).
def iter_next (prog : MillProgram) (cfg : Config) : Option Config :=
  match mill_iter prog cfg with
  | .next cfg1 => some cfg1
  | .stop _ _ _ => none

def mill_steps (prog : MillProgram) : Config → Nat → Option Config
  | cfg, 0 => some cfg
  | cfg, k + 1 =>
    match iter_next prog cfg with
    | some cfg1 => mill_steps prog cfg1 k
    | none => none

-- First loop of mill_print_tape: scan backward from index 0 (size_t
-- wraparound folded into + (MILL_TAPE_SIZE - 1)) for at most
-- MILL_TAPE_SIZE steps until a blank cell.
def scanBack (buf : Nat → Nat) : Nat → Nat → Nat
  | 0, start => start
  | fuel + 1, start =>
    if buf start = 0 then start
    else scanBack buf fuel ((start + (MILL_TAPE_SIZE - 1)) % MILL_TAPE_SIZE)

-- Second loop: scan forward from the seam skipping blank cells.
def scanFwd (buf : Nat → Nat) : Nat → Nat → Nat
  | 0, start => start
  | fuel + 1, start =>
    if buf start ≠ 0 then start
    else scanFwd buf fuel ((start + 1) % MILL_TAPE_SIZE)

-- fputws(&buf[i]): emit cells until the next blank sentinel; the fuel
-- encodes the physical end of the array, where the zero _null field sits.
def emitFrom (buf : Nat → Nat) : Nat → Nat → List Nat
  | 0, _ => []
  | fuel + 1, i => if buf i = 0 then [] else buf i :: emitFrom buf fuel (i + 1)

-- mill_print_tape: the seam / start scans, the run from start to the next
-- blank or the physical array end, the wrapped run from index 0 when
-- start > 0 and cell 0 is non-blank, then the newline (10).
def mill_print_tape (tape : MillTape) : List Nat :=
  let seam := scanBack tape.buf MILL_TAPE_SIZE 0
  let start := scanFwd tape.buf MILL_TAPE_SIZE seam
  let seg1 := emitFrom tape.buf (MILL_TAPE_SIZE - start) start
  let seg2 :=
    if 0 < start ∧ tape.buf 0 ≠ 0 then emitFrom tape.buf MILL_TAPE_SIZE 0
    else []
  seg1 ++ seg2 ++ [10]

-- Concrete scenario inputs.  Scenario 1/2 program INIT a HALT b R:
def txt1 : List Nat :=
  [73, 78, 73, 84, 32, 97, 32, 72, 65, 76, 84, 32, 98, 32, 82]

def prog1 : MillProgram :=
  ⟨⟨[[73, 78, 73, 84], [72, 65, 76, 84]], 10⟩, 0, 1,
    [⟨0, 97, 1, 98, 82⟩]⟩

-- Tape line "a" (no trailing terminator) and tape line "x".
def tape_a : MillTape := ⟨fun i => (firstLine [97]).getD i 0, 0⟩

def tape_x : MillTape := ⟨fun i => (firstLine [120]).getD i 0, 0⟩

-- Scenario 3 program INIT a INIT a R:
def txt3 : List Nat :=
  [73, 78, 73, 84, 32, 97, 32, 73, 78, 73, 84, 32, 97, 32, 82]

def prog3 : MillProgram :=
  ⟨⟨[[73, 78, 73, 84], [72, 65, 76, 84]], 10⟩, 0, 1,
    [⟨0, 97, 0, 97, 82⟩]⟩

-- Scenario 4 program INIT a HALT _ L:
def txt4 : List Nat :=
  [73, 78, 73, 84, 32, 97, 32, 72, 65, 76, 84, 32, 95, 32, 76]

def prog4 : MillProgram :=
  ⟨⟨[[73, 78, 73, 84], [72, 65, 76, 84]], 10⟩, 0, 1,
    [⟨0, 97, 1, 0, 76⟩]⟩

-- A genuinely non-terminating program: INIT a INIT a R plus INIT _ INIT _ R.
def prog2 : MillProgram :=
  ⟨⟨[[73, 78, 73, 84], [72, 65, 76, 84]], 10⟩, 0, 1,
    [⟨0, 97, 0, 97, 82⟩, ⟨0, 0, 0, 0, 82⟩]⟩

-- Program INIT a INIT b L newline INIT _ HALT c R, and a tape line of
-- MILL_TAPE_SIZE - 1 characters: two steps fill the whole buffer.
def txt9 : List Nat :=
  [73, 78, 73, 84, 32, 97, 32, 73, 78, 73, 84, 32, 98, 32, 76, 10,
   73, 78, 73, 84, 32, 95, 32, 72, 65, 76, 84, 32, 99, 32, 82]

def prog9 : MillProgram :=
  ⟨⟨[[73, 78, 73, 84], [72, 65, 76, 84]], 10⟩, 0, 1,
    [⟨0, 97, 0, 98, 76⟩, ⟨0, 0, 1, 99, 82⟩]⟩

def line9 : List Nat := List.replicate 1048575 97

def tape9 : MillTape := ⟨fun i => (firstLine line9).getD i 0, 0⟩

-- A buffer with one written cell at index 0, for seam instantiation.
def bufw : Nat → Nat := fun i => if i = 0 then 98 else 0

-- Two instructions for the same (state, symbol) pair with different
-- outputs: declaration-order priority must fire only the first.
def insA : MillInstr := ⟨0, 97, 1, 98, 82⟩

def insB : MillInstr := ⟨0, 97, 1, 99, 82⟩

def dupList : List MillInstr := [insA, insB]

-- Invariant of the symbol table: the character data consumed never exceeds
-- one (MILL_STATE_MAX + 1)-sized slot per stored name.
def SymTableBound (t : SymTable) : Prop :=
  t.datasize ≤ t.symbols.length * (MILL_STATE_MAX + 1)

-- The number of blank-sentinel cells of the buffer window [0, MILL_TAPE_SIZE).
def blankCount (buf : Nat → Nat) : Nat :=
  ((Finset.range MILL_TAPE_SIZE).filter (fun i => buf i = 0)).card

-- Recognizers for the symbols-buffer-exhausted failure.
def isBufEx : Except ParseErr MillProgram → Bool
  | .error .bufferExhausted => true
  | _ => false

def isBufExIns : Except ParseErr (SymTable × Nat) → Bool
  | .error .bufferExhausted => true
  | _ => false

-- The symbol table carried by a parse-instruction result, when any.
def instrOutTable : InstrOut → Option SymTable
  | .perr _ => none
  | .done t => some t
  | .one _ t _ => some t

-- Lexer loop invariant: in the states that start a field (or skip
-- whitespace or a comment) the token buffer is empty.
def TokEmpty (st : Nat) (tok : List Nat) : Prop :=
  st = 0 ∨ st = 2 ∨ st = 4 ∨ st = 6 ∨ st = 8 ∨ st = 10 ∨ st = 20 → tok = []

-- Lexer loop invariant: past state 9 the move field has been validated.
def MoveOK (st : Nat) (d : MillInstr) : Prop :=
  st = 10 ∨ st = 11 ∨ st = 12 ∨ st = 100 → d.move = 76 ∨ d.move = 82

-- Helper lemmas: head movement arithmetic.

theorem mill_move_lt (p m : Nat) : mill_move p m < MILL_TAPE_SIZE :=
  Nat.mod_lt _ (by decide)

theorem mill_move_ne (p m : Nat) : mill_move p m ≠ p := by
  have h1 : ∀ d, 0 < d → d < MILL_TAPE_SIZE →
      (p + d) % MILL_TAPE_SIZE ≠ p := by
    intro d hd0 hdN h
    have hplt : p < MILL_TAPE_SIZE := by
      rw [← h]; exact Nat.mod_lt _ (by decide)
    rcases Nat.lt_or_ge (p + d) MILL_TAPE_SIZE with hc | hc
    · rw [Nat.mod_eq_of_lt hc] at h; omega
    · rw [Nat.mod_eq_sub_mod hc, Nat.mod_eq_of_lt (by omega)] at h; omega
  unfold mill_move
  split
  · exact h1 _ (by decide) (by decide)
  · exact h1 _ (by decide) (by decide)

-- Helper lemmas: lists.

theorem getD_rep (n i a d : Nat) :
    (List.replicate n a).getD i d = if i < n then a else d := by
  induction n generalizing i with
  | zero => simp [List.replicate]
  | succ n ih =>
    cases i with
    | zero => simp [List.replicate]
    | succ i =>
      rw [List.replicate, List.getD_cons_succ, ih]
      by_cases h : i < n
      · rw [if_pos h, if_pos (by omega)]
      · rw [if_neg h, if_neg (by omega)]

theorem firstLine_go_rep (m n : Nat) :
    firstLine_go n (List.replicate m 97) = List.replicate (min n m) 97 := by
  induction m generalizing n with
  | zero => simp [List.replicate, firstLine_go]
  | succ m ih =>
    cases n with
    | zero => simp [List.replicate, firstLine_go]
    | succ n =>
      rw [List.replicate, firstLine_go]
      simp only [if_neg (by decide : ¬(97 : Nat) = 10)]
      rw [ih, Nat.succ_min_succ, List.replicate]

theorem firstLine_go_len (l : List Nat) : ∀ n, (firstLine_go n l).length ≤ n := by
  induction l with
  | nil => intro n; cases n <;> simp [firstLine_go]
  | cons c rest ih =>
    intro n
    cases n with
    | zero => simp [firstLine_go]
    | succ n =>
      rw [firstLine_go]
      split
      · simp
      · simpa using ih n

theorem firstLine9 : firstLine line9 = line9 := by
  unfold firstLine line9
  rw [show MILL_TAPE_SIZE - 1 = 1048575 by decide, firstLine_go_rep]
  norm_num

theorem buf9_eq (i : Nat) : tape9.buf i = if i < 1048575 then 97 else 0 := by
  show (firstLine line9).getD i 0 = _
  rw [firstLine9]
  unfold line9
  rw [getD_rep]

-- Helper lemmas: the instruction scan is the first match.

theorem mill_find_some_spec : ∀ (l : List MillInstr) (s c i k : Nat)
    (ins : MillInstr), mill_find l s c i = some (k, ins) →
    ∃ d, k = i + d ∧ l.get? d = some ins ∧ ins.state_in = s ∧
      ins.char_in = c ∧ ∀ j, j < d → ∀ insj, l.get? j = some insj →
        ¬(insj.state_in = s ∧ insj.char_in = c) := by
  intro l
  induction l with
  | nil => intro s c i k ins h; simp [mill_find] at h
  | cons a rest ih =>
    intro s c i k ins h
    rw [mill_find] at h
    by_cases hm : a.state_in = s ∧ a.char_in = c
    · rw [if_pos hm] at h
      simp only [Option.some.injEq, Prod.mk.injEq] at h
      obtain ⟨h1, h2⟩ := h
      subst h1; subst h2
      refine ⟨0, by omega, by simp, hm.1, hm.2, ?_⟩
      intro j hj
      exact absurd hj (Nat.not_lt_zero j)
    · rw [if_neg hm] at h
      obtain ⟨d, hk, hget, hs, hc, hmin⟩ := ih s c (i + 1) k ins h
      refine ⟨d + 1, by omega, by simpa using hget, hs, hc, ?_⟩
      intro j hj insj hgj
      cases j with
      | zero =>
        simp only [List.get?_cons_zero, Option.some.injEq] at hgj
        subst hgj
        exact hm
      | succ j =>
        exact hmin j (by omega) insj (by simpa using hgj)

theorem mill_find_none_spec : ∀ (l : List MillInstr) (s c i : Nat),
    mill_find l s c i = none → ∀ j insj, l.get? j = some insj →
      ¬(insj.state_in = s ∧ insj.char_in = c) := by
  intro l
  induction l with
  | nil => intro s c i _ j insj hgj; simp at hgj
  | cons a rest ih =>
    intro s c i h j insj hgj
    rw [mill_find] at h
    by_cases hm : a.state_in = s ∧ a.char_in = c
    · rw [if_pos hm] at h; exact absurd h (by simp)
    · rw [if_neg hm] at h
      cases j with
      | zero =>
        simp only [List.get?_cons_zero, Option.some.injEq] at hgj
        subst hgj
        exact hm
      | succ j =>
        exact ih s c (i + 1) h j insj (by simpa using hgj)

theorem mill_find_mem : ∀ (l : List MillInstr) (s c i k : Nat)
    (ins : MillInstr), mill_find l s c i = some (k, ins) → ins ∈ l := by
  intro l
  induction l with
  | nil => intro s c i k ins h; simp [mill_find] at h
  | cons a rest ih =>
    intro s c i k ins h
    rw [mill_find] at h
    by_cases hm : a.state_in = s ∧ a.char_in = c
    · rw [if_pos hm] at h
      simp only [Option.some.injEq, Prod.mk.injEq] at h
      rw [← h.2]
      exact List.mem_cons_self a rest
    · rw [if_neg hm] at h
      exact List.mem_cons_of_mem a (ih s c (i + 1) k ins h)

theorem mill_find_complete : ∀ (l : List MillInstr) (s c : Nat), ∀ (i j : Nat)
    (insj : MillInstr), l.get? j = some insj → insj.state_in = s →
    insj.char_in = c →
    ∃ k ins, mill_find l s c i = some (k, ins) ∧ k ≤ i + j := by
  intro l
  induction l with
  | nil => intro s c i j insj hgj; simp at hgj
  | cons a rest ih =>
    intro s c i j insj hgj hs hc
    rw [mill_find]
    by_cases hm : a.state_in = s ∧ a.char_in = c
    · exact ⟨i, a, by rw [if_pos hm], by omega⟩
    · rw [if_neg hm]
      cases j with
      | zero =>
        simp only [List.get?_cons_zero, Option.some.injEq] at hgj
        subst hgj
        exact absurd ⟨hs, hc⟩ hm
      | succ j =>
        obtain ⟨k, ins, hfind, hk⟩ :=
          ih s c (i + 1) j insj (by simpa using hgj) hs hc
        exact ⟨k, ins, hfind, by omega⟩

-- Helper lemmas: relating the run loop to the step function.

theorem iter_next_eq_next (prog : MillProgram) (cfg cfg1 : Config)
    (h : iter_next prog cfg = some cfg1) : mill_iter prog cfg = .next cfg1 := by
  unfold iter_next at h
  cases hit : mill_iter prog cfg with
  | next c2 => rw [hit] at h; simp only [Option.some.injEq] at h; rw [h]
  | stop o b p => rw [hit] at h; simp at h

theorem run_loop_of_steps (prog : MillProgram) : ∀ (k : Nat)
    (cfg cfg2 : Config) (t fuel : Nat), mill_steps prog cfg k = some cfg2 →
    mill_run_loop prog cfg t (k + fuel) =
      mill_run_loop prog cfg2 (t + k) fuel := by
  intro k
  induction k with
  | zero =>
    intro cfg cfg2 t fuel h
    simp only [mill_steps, Option.some.injEq] at h
    subst h
    simp
  | succ k ih =>
    intro cfg cfg2 t fuel h
    simp only [mill_steps] at h
    cases hi : iter_next prog cfg with
    | none => rw [hi] at h; simp at h
    | some cfg1 =>
      rw [hi] at h
      have hit := iter_next_eq_next prog cfg cfg1 hi
      rw [show k + 1 + fuel = (k + fuel) + 1 by omega]
      simp only [mill_run_loop, hit]
      rw [ih cfg1 cfg2 (t + 1) fuel h]
      rw [show t + 1 + k = t + (k + 1) by omega]

theorem mill_run_loop_succ (prog : MillProgram) (cfg : Config)
    (t fuel : Nat) :
    mill_run_loop prog cfg t (fuel + 1) =
      match mill_iter prog cfg with
      | .stop o buf pos => ⟨o, t + 1, ⟨buf, pos⟩⟩
      | .next cfg1 => mill_run_loop prog cfg1 (t + 1) fuel := rfl

-- Helper lemmas: the stall branch.

theorem stall_iter (prog : MillProgram) (cfg : Config)
    (h : mill_find prog.instructions cfg.state (cfg.buf cfg.pos) 0 = none) :
    mill_iter prog cfg =
      .stop (.Stalled cfg.state (cfg.buf cfg.pos)) cfg.buf cfg.pos := by
  simp [mill_iter, h]

theorem mill_iter_next_shape (prog : MillProgram) (cfg cfg1 : Config)
    (h : mill_iter prog cfg = .next cfg1) :
    ∃ k ins, mill_find prog.instructions cfg.state (cfg.buf cfg.pos) 0 =
        some (k, ins) ∧
      cfg1 = ⟨writeTape cfg.buf cfg.pos ins.char_out,
        mill_move cfg.pos ins.move, ins.state_out⟩ := by
  cases hf : mill_find prog.instructions cfg.state (cfg.buf cfg.pos) 0 with
  | none => rw [stall_iter prog cfg hf] at h; exact absurd h (by simp)
  | some ki =>
    obtain ⟨k, ins⟩ := ki
    refine ⟨k, ins, rfl, ?_⟩
    simp only [mill_iter, hf] at h
    split at h
    · split at h
      · exact absurd h (by simp)
      · split at h
        · exact absurd h (by simp)
        · simp only [IterOut.next.injEq] at h
          rw [← h]
    · exact absurd h (by simp)

theorem mill_iter_stop_pos (prog : MillProgram) (cfg : Config)
    (o : RunOutcome) (b : Nat → Nat) (p : Nat)
    (h : mill_iter prog cfg = .stop o b p) :
    p = cfg.pos ∨ ∃ m, p = mill_move cfg.pos m := by
  cases hf : mill_find prog.instructions cfg.state (cfg.buf cfg.pos) 0 with
  | none =>
    rw [stall_iter prog cfg hf] at h
    simp only [IterOut.stop.injEq] at h
    exact Or.inl h.2.2.symm
  | some ki =>
    obtain ⟨k, ins⟩ := ki
    simp only [mill_iter, hf] at h
    split at h
    · split at h
      · simp only [IterOut.stop.injEq] at h
        exact Or.inr ⟨ins.move, h.2.2.symm⟩
      · split at h
        · simp only [IterOut.stop.injEq] at h
          exact Or.inr ⟨ins.move, h.2.2.symm⟩
        · exact absurd h (by simp)
    · simp only [IterOut.stop.injEq] at h
      exact Or.inl h.2.2.symm

theorem mill_iter_no_invalid (prog : MillProgram) (cfg : Config)
    (o : RunOutcome) (b : Nat → Nat) (p : Nat)
    (hmov : ∀ ins, ins ∈ prog.instructions →
      ins.move = 76 ∨ ins.move = 82)
    (h : mill_iter prog cfg = .stop o b p) : o ≠ .InvalidHeadMove := by
  cases hf : mill_find prog.instructions cfg.state (cfg.buf cfg.pos) 0 with
  | none =>
    rw [stall_iter prog cfg hf] at h
    simp only [IterOut.stop.injEq] at h
    rw [← h.1]
    simp
  | some ki =>
    obtain ⟨k, ins⟩ := ki
    have hm := hmov ins (mill_find_mem _ _ _ _ _ _ hf)
    simp only [mill_iter, hf] at h
    rw [if_pos hm] at h
    split at h
    · simp only [IterOut.stop.injEq] at h
      rw [← h.1]
      simp
    · split at h
      · simp only [IterOut.stop.injEq] at h
        rw [← h.1]
        simp
      · exact absurd h (by simp)

theorem iter_stalled_iff (prog : MillProgram) (cfg : Config) :
    (∃ s c b p, mill_iter prog cfg = .stop (.Stalled s c) b p) ↔
      mill_find prog.instructions cfg.state (cfg.buf cfg.pos) 0 = none := by
  constructor
  · rintro ⟨s, c, b, p, heq⟩
    cases hf : mill_find prog.instructions cfg.state (cfg.buf cfg.pos) 0 with
    | none => rfl
    | some ki =>
      exfalso
      obtain ⟨k, ins⟩ := ki
      simp only [mill_iter, hf] at heq
      split at heq
      · split at heq
        · exact absurd heq (by simp)
        · split at heq
          · rename_i hpos
            exact mill_move_ne cfg.pos ins.move hpos
          · exact absurd heq (by simp)
      · exact absurd heq (by simp)
  · intro h
    exact ⟨cfg.state, cfg.buf cfg.pos, cfg.buf, cfg.pos, stall_iter prog cfg h⟩

theorem run_stall (prog : MillProgram) (tape : MillTape) (t : Nat)
    (cfg : Config) (ht : t < MILL_STEPS_MAX)
    (hsteps : mill_steps prog (initCfg prog tape) t = some cfg)
    (hfind : mill_find prog.instructions cfg.state (cfg.buf cfg.pos) 0 =
      none) :
    mill_run prog tape = ⟨.Stalled cfg.state (cfg.buf cfg.pos), t + 1,
      ⟨cfg.buf, cfg.pos⟩⟩ := by
  unfold mill_run
  rw [show MILL_STEPS_MAX = t + (MILL_STEPS_MAX - t) by omega]
  rw [run_loop_of_steps prog t (initCfg prog tape) cfg 0
    (MILL_STEPS_MAX - t) hsteps]
  obtain ⟨m, hm⟩ : ∃ m, MILL_STEPS_MAX - t = m + 1 :=
    ⟨MILL_STEPS_MAX - t - 1, by omega⟩
  rw [hm]
  simp only [mill_run_loop, stall_iter prog cfg hfind]
  rw [Nat.zero_add]

theorem run_timeout_of_steps (prog : MillProgram) (tape : MillTape)
    (cfg2 : Config)
    (h : mill_steps prog (initCfg prog tape) MILL_STEPS_MAX = some cfg2) :
    mill_run prog tape = ⟨.TimedOut, MILL_STEPS_MAX, ⟨cfg2.buf, cfg2.pos⟩⟩ := by
  unfold mill_run
  have h2 := run_loop_of_steps prog MILL_STEPS_MAX (initCfg prog tape)
    cfg2 0 0 h
  rw [Nat.add_zero] at h2
  rw [h2]
  rfl

theorem steps_pos (prog : MillProgram) : ∀ (k : Nat) (cfg cfg2 : Config),
    cfg.pos < MILL_TAPE_SIZE → mill_steps prog cfg k = some cfg2 →
    cfg2.pos < MILL_TAPE_SIZE := by
  intro k
  induction k with
  | zero =>
    intro cfg cfg2 h hs
    simp only [mill_steps, Option.some.injEq] at hs
    subst hs
    exact h
  | succ k ih =>
    intro cfg cfg2 h hs
    simp only [mill_steps] at hs
    cases hi : iter_next prog cfg with
    | none => rw [hi] at hs; simp at hs
    | some cfg1 =>
      rw [hi] at hs
      obtain ⟨k2, ins, hf, hshape⟩ :=
        mill_iter_next_shape prog cfg cfg1 (iter_next_eq_next prog cfg cfg1 hi)
      exact ih cfg1 cfg2 (by rw [hshape]; exact mill_move_lt _ _) hs

theorem run_loop_pos (prog : MillProgram) : ∀ (fuel : Nat) (cfg : Config)
    (t : Nat), cfg.pos < MILL_TAPE_SIZE →
    (mill_run_loop prog cfg t fuel).tape.pos < MILL_TAPE_SIZE := by
  intro fuel
  induction fuel with
  | zero => intro cfg t h; exact h
  | succ fuel ih =>
    intro cfg t h
    cases hit : mill_iter prog cfg with
    | next cfg1 =>
      simp only [mill_run_loop, hit]
      obtain ⟨k, ins, hf, hshape⟩ := mill_iter_next_shape prog cfg cfg1 hit
      exact ih cfg1 (t + 1) (by rw [hshape]; exact mill_move_lt _ _)
    | stop o b p =>
      simp only [mill_run_loop, hit]
      show p < MILL_TAPE_SIZE
      rcases mill_iter_stop_pos prog cfg o b p hit with hp | ⟨m, hp⟩
      · rw [hp]; exact h
      · rw [hp]; exact mill_move_lt _ _

theorem run_loop_no_invalid (prog : MillProgram)
    (hmov : ∀ ins, ins ∈ prog.instructions →
      ins.move = 76 ∨ ins.move = 82) :
    ∀ (fuel : Nat) (cfg : Config) (t : Nat),
    (mill_run_loop prog cfg t fuel).outcome ≠ .InvalidHeadMove := by
  intro fuel
  induction fuel with
  | zero => intro cfg t; simp [mill_run_loop]
  | succ fuel ih =>
    intro cfg t
    cases hit : mill_iter prog cfg with
    | next cfg1 =>
      simp only [mill_run_loop, hit]
      exact ih cfg1 (t + 1)
    | stop o b p =>
      simp only [mill_run_loop, hit]
      exact mill_iter_no_invalid prog cfg o b p hmov hit

-- Helper lemmas: rendering.

theorem emitFrom_all (buf : Nat → Nat) (h : ∀ i, buf i = 0) :
    ∀ fuel i, emitFrom buf fuel i = [] := by
  intro fuel i
  cases fuel with
  | zero => rfl
  | succ fuel => simp [emitFrom, h i]

theorem print_allblank (tape : MillTape) (h : ∀ i, tape.buf i = 0) :
    mill_print_tape tape = [10] := by
  simp [mill_print_tape, emitFrom_all tape.buf h, h 0]

theorem scanBack_first (buf : Nat → Nat) : ∀ (k fuel s : Nat),
    s < MILL_TAPE_SIZE → k < fuel →
    buf ((s + (MILL_TAPE_SIZE - 1) * k) % MILL_TAPE_SIZE) = 0 →
    (∀ j, j < k →
      buf ((s + (MILL_TAPE_SIZE - 1) * j) % MILL_TAPE_SIZE) ≠ 0) →
    scanBack buf fuel s = (s + (MILL_TAPE_SIZE - 1) * k) % MILL_TAPE_SIZE := by
  intro k
  induction k with
  | zero =>
    intro fuel s hs hf hblank _
    obtain ⟨f, rfl⟩ : ∃ f, fuel = f + 1 := ⟨fuel - 1, by omega⟩
    simp only [Nat.mul_zero, Nat.add_zero, Nat.mod_eq_of_lt hs] at hblank ⊢
    rw [scanBack, if_pos hblank]
  | succ k ih =>
    intro fuel s hs hf hblank hnon
    obtain ⟨f, rfl⟩ : ∃ f, fuel = f + 1 := ⟨fuel - 1, by omega⟩
    have h0 : ¬buf s = 0 := by
      have h2 := hnon 0 (by omega)
      rwa [Nat.mul_zero, Nat.add_zero, Nat.mod_eq_of_lt hs] at h2
    rw [scanBack, if_neg h0]
    have hsh : ∀ j : Nat, ((s + (MILL_TAPE_SIZE - 1)) % MILL_TAPE_SIZE +
        (MILL_TAPE_SIZE - 1) * j) % MILL_TAPE_SIZE =
        (s + (MILL_TAPE_SIZE - 1) * (j + 1)) % MILL_TAPE_SIZE := by
      intro j
      rw [Nat.mod_add_mod]
      congr 1
      ring
    rw [ih f ((s + (MILL_TAPE_SIZE - 1)) % MILL_TAPE_SIZE)
      (Nat.mod_lt _ (by decide)) (by omega)
      (by rw [hsh]; exact hblank)
      (fun j hj => by rw [hsh]; exact hnon (j + 1) (by omega))]
    rw [hsh]

theorem scanFwd_first (buf : Nat → Nat) : ∀ (k fuel s : Nat),
    s < MILL_TAPE_SIZE → k < fuel →
    buf ((s + k) % MILL_TAPE_SIZE) ≠ 0 →
    (∀ j, j < k → buf ((s + j) % MILL_TAPE_SIZE) = 0) →
    scanFwd buf fuel s = (s + k) % MILL_TAPE_SIZE := by
  intro k
  induction k with
  | zero =>
    intro fuel s hs hf hnb _
    obtain ⟨f, rfl⟩ : ∃ f, fuel = f + 1 := ⟨fuel - 1, by omega⟩
    simp only [Nat.add_zero, Nat.mod_eq_of_lt hs] at hnb ⊢
    rw [scanFwd, if_pos hnb]
  | succ k ih =>
    intro fuel s hs hf hnb hbl
    obtain ⟨f, rfl⟩ : ∃ f, fuel = f + 1 := ⟨fuel - 1, by omega⟩
    have h0 : buf s = 0 := by
      have h2 := hbl 0 (by omega)
      rwa [Nat.add_zero, Nat.mod_eq_of_lt hs] at h2
    rw [scanFwd, if_neg (by simp [h0])]
    have hsh : ∀ j : Nat, ((s + 1) % MILL_TAPE_SIZE + j) % MILL_TAPE_SIZE =
        (s + (j + 1)) % MILL_TAPE_SIZE := by
      intro j
      rw [Nat.mod_add_mod]
      congr 1
      ring
    rw [ih f ((s + 1) % MILL_TAPE_SIZE) (Nat.mod_lt _ (by decide))
      (by omega) (by rw [hsh]; exact hnb)
      (fun j hj => by rw [hsh]; exact hbl (j + 1) (by omega))]
    rw [hsh]

-- Helper lemmas: the symbol table.

theorem parse_headmove_valid (tok : List Nat) (m : Nat)
    (h : parse_headmove tok = some m) : m = 76 ∨ m = 82 := by
  unfold parse_headmove at h
  split at h
  · rename_i c
    split at h
    · rename_i hc
      simp only [Option.some.injEq] at h
      subst h
      exact hc
    · simp at h
  · simp at h

theorem lookup_append_new : ∀ (L : List (List Nat)) (s : List Nat),
    symtable_lookup L s = none →
    symtable_lookup (L ++ [s]) s = some L.length := by
  intro L
  induction L with
  | nil => intro s _; simp [symtable_lookup]
  | cons x rest ih =>
    intro s h
    rw [symtable_lookup] at h
    by_cases hx : x = s
    · rw [if_pos hx] at h; simp at h
    · rw [if_neg hx] at h
      have h2 : symtable_lookup rest s = none := by
        cases hl : symtable_lookup rest s with
        | none => rfl
        | some j => rw [hl] at h; simp at h
      rw [List.cons_append, symtable_lookup, if_neg hx, ih s h2]
      simp

theorem insert_twice (t : SymTable) (s : List Nat) (t1 : SymTable) (i : Nat)
    (h : symtable_insert t s = .ok (t1, i)) :
    symtable_insert t1 s = .ok (t1, i) := by
  unfold symtable_insert at h
  split at h
  · rename_i j heq
    simp only [Except.ok.injEq, Prod.mk.injEq] at h
    obtain ⟨h1, h2⟩ := h
    have hlook : symtable_lookup t1.symbols s = some i := by
      rw [← h1, ← h2]; exact heq
    unfold symtable_insert
    rw [hlook]
  · rename_i heq
    split at h
    · simp at h
    · split at h
      · simp at h
      · simp only [Except.ok.injEq, Prod.mk.injEq] at h
        obtain ⟨h1, h2⟩ := h
        have hlook : symtable_lookup t1.symbols s = some i := by
          rw [← h1, ← h2]
          exact lookup_append_new t.symbols s heq
        unfold symtable_insert
        rw [hlook]

theorem insert_grows (t : SymTable) (s : List Nat) (t1 : SymTable) (i : Nat)
    (h : symtable_insert t s = .ok (t1, i)) :
    ∃ r, t1.symbols = t.symbols ++ r := by
  unfold symtable_insert at h
  split at h
  · simp only [Except.ok.injEq, Prod.mk.injEq] at h
    exact ⟨[], by rw [← h.1]; simp⟩
  · split at h
    · simp at h
    · split at h
      · simp at h
      · simp only [Except.ok.injEq, Prod.mk.injEq] at h
        exact ⟨[s], by rw [← h.1]⟩

theorem insert_ok_bound (t : SymTable) (s : List Nat) (t1 : SymTable)
    (i : Nat) (hb : SymTableBound t) (hlen : s.length ≤ MILL_STATE_MAX)
    (h : symtable_insert t s = .ok (t1, i)) : SymTableBound t1 := by
  unfold symtable_insert at h
  split at h
  · simp only [Except.ok.injEq, Prod.mk.injEq] at h
    rw [← h.1]
    exact hb
  · split at h
    · simp at h
    · split at h
      · simp at h
      · simp only [Except.ok.injEq, Prod.mk.injEq] at h
        rw [← h.1]
        show t.datasize + (s.length + 1) ≤
          (t.symbols ++ [s]).length * (MILL_STATE_MAX + 1)
        rw [List.length_append]
        unfold SymTableBound at hb
        simp only [MILL_STATE_MAX] at hb hlen ⊢
        simp only [List.length_cons, List.length_nil]
        omega

theorem insert_err_kind (t : SymTable) (s : List Nat) (e : ParseErr)
    (hb : SymTableBound t) (hlen : s.length ≤ MILL_STATE_MAX)
    (h : symtable_insert t s = .error e) : e = .symbolLimit := by
  unfold symtable_insert at h
  split at h
  · simp at h
  · split at h
    · simp only [Except.error.injEq] at h
      exact h.symm
    · split at h
      · rename_i hsize hbuf
        exfalso
        unfold SymTableBound at hb
        simp only [MILL_STATES_MAX, MILL_STATE_MAX] at hb hlen hsize hbuf
        omega
      · simp at h

-- Helper lemma: one lexer step preserves the loop invariants and can only
-- fail with a non-bufferExhausted parse error.

theorem parse_instr_step_props (t : SymTable) (d : MillInstr)
    (tok : List Nat) (st c : Nat)
    (hb : SymTableBound t) (hlen : tok.length ≤ MILL_STATE_MAX)
    (hemp : TokEmpty st tok) (hmv : MoveOK st d) :
    (∀ e, parse_instr_step t d tok st c = .fail e →
      e ≠ .bufferExhausted) ∧
    (∀ t1 d1 tok1 st1,
      parse_instr_step t d tok st c = .cont t1 d1 tok1 st1 →
      SymTableBound t1 ∧ tok1.length ≤ MILL_STATE_MAX ∧
        TokEmpty st1 tok1 ∧ MoveOK st1 d1 ∧
        ∃ r, t1.symbols = t.symbols ++ r) := by
  unfold parse_instr_step
  split
  · -- state 0
    have htok : tok = [] := hemp (by norm_num)
    constructor
    · intro e h; split at h <;> simp at h
    · intro t1 d1 tok1 st1 h
      split at h <;>
        (simp only [StepOut.cont.injEq] at h; obtain ⟨rfl, rfl, rfl, rfl⟩ := h)
      · exact ⟨hb, hlen, fun _ => htok,
          fun hx => absurd hx (by norm_num), ⟨[], by simp⟩⟩
      · refine ⟨hb, ?_, fun hx => absurd hx (by norm_num),
          fun hx => absurd hx (by norm_num), ⟨[], by simp⟩⟩
        rw [htok]
        simp only [List.nil_append, List.length_cons, List.length_nil,
          MILL_STATE_MAX]
        omega
  · -- state 1
    constructor
    · intro e h
      split at h
      · split at h
        · rename_i e0 heq
          simp only [StepOut.fail.injEq] at h
          subst h
          rw [insert_err_kind t tok e0 hb hlen heq]
          simp
        · simp at h
      · split at h
        · simp only [StepOut.fail.injEq] at h; subst h; simp
        · split at h <;> simp at h
    · intro t1 d1 tok1 st1 h
      split at h
      · split at h
        · simp at h
        · rename_i t2 sid heq
          simp only [StepOut.cont.injEq] at h
          obtain ⟨rfl, rfl, rfl, rfl⟩ := h
          exact ⟨insert_ok_bound t tok t2 sid hb hlen heq, by decide,
            fun _ => rfl, fun hx => absurd hx (by norm_num),
            insert_grows t tok t2 sid heq⟩
      · split at h
        · simp at h
        · split at h
          · simp only [StepOut.cont.injEq] at h
            obtain ⟨rfl, rfl, rfl, rfl⟩ := h
            exact ⟨hb, by decide, fun _ => rfl,
              fun hx => absurd hx (by norm_num), ⟨[], by simp⟩⟩
          · rename_i hsp hlong hsl
            simp only [StepOut.cont.injEq] at h
            obtain ⟨rfl, rfl, rfl, rfl⟩ := h
            refine ⟨hb, ?_, fun hx => absurd hx (by norm_num),
              fun hx => absurd hx (by norm_num), ⟨[], by simp⟩⟩
            simp only [List.length_append, List.length_cons, List.length_nil]
            simp only [MILL_STATE_MAX] at hlong ⊢
            omega
  · -- state 2
    have htok : tok = [] := hemp (by norm_num)
    constructor
    · intro e h; split at h <;> simp at h
    · intro t1 d1 tok1 st1 h
      split at h <;>
        (simp only [StepOut.cont.injEq] at h; obtain ⟨rfl, rfl, rfl, rfl⟩ := h)
      · exact ⟨hb, hlen, fun _ => htok,
          fun hx => absurd hx (by norm_num), ⟨[], by simp⟩⟩
      · refine ⟨hb, ?_, fun hx => absurd hx (by norm_num),
          fun hx => absurd hx (by norm_num), ⟨[], by simp⟩⟩
        rw [htok]
        simp only [List.nil_append, List.length_cons, List.length_nil,
          MILL_STATE_MAX]
        omega
  · -- state 3
    constructor
    · intro e h
      split at h
      · simp at h
      · simp only [StepOut.fail.injEq] at h; subst h; simp
    · intro t1 d1 tok1 st1 h
      split at h
      · simp only [StepOut.cont.injEq] at h
        obtain ⟨rfl, rfl, rfl, rfl⟩ := h
        exact ⟨hb, by decide, fun _ => rfl,
          fun hx => absurd hx (by norm_num), ⟨[], by simp⟩⟩
      · simp at h
  · -- state 4
    have htok : tok = [] := hemp (by norm_num)
    constructor
    · intro e h; split at h <;> simp at h
    · intro t1 d1 tok1 st1 h
      split at h <;>
        (simp only [StepOut.cont.injEq] at h; obtain ⟨rfl, rfl, rfl, rfl⟩ := h)
      · exact ⟨hb, hlen, fun _ => htok,
          fun hx => absurd hx (by norm_num), ⟨[], by simp⟩⟩
      · refine ⟨hb, ?_, fun hx => absurd hx (by norm_num),
          fun hx => absurd hx (by norm_num), ⟨[], by simp⟩⟩
        rw [htok]
        simp only [List.nil_append, List.length_cons, List.length_nil,
          MILL_STATE_MAX]
        omega
  · -- state 5
    constructor
    · intro e h
      split at h
      · split at h
        · rename_i e0 heq
          simp only [StepOut.fail.injEq] at h
          subst h
          rw [insert_err_kind t tok e0 hb hlen heq]
          simp
        · simp at h
      · split at h
        · simp only [StepOut.fail.injEq] at h; subst h; simp
        · simp at h
    · intro t1 d1 tok1 st1 h
      split at h
      · split at h
        · simp at h
        · rename_i t2 sid heq
          simp only [StepOut.cont.injEq] at h
          obtain ⟨rfl, rfl, rfl, rfl⟩ := h
          exact ⟨insert_ok_bound t tok t2 sid hb hlen heq, by decide,
            fun _ => rfl, fun hx => absurd hx (by norm_num),
            insert_grows t tok t2 sid heq⟩
      · split at h
        · simp at h
        · rename_i hsp hlong
          simp only [StepOut.cont.injEq] at h
          obtain ⟨rfl, rfl, rfl, rfl⟩ := h
          refine ⟨hb, ?_, fun hx => absurd hx (by norm_num),
            fun hx => absurd hx (by norm_num), ⟨[], by simp⟩⟩
          simp only [List.length_append, List.length_cons, List.length_nil]
          simp only [MILL_STATE_MAX] at hlong ⊢
          omega
  · -- state 6
    have htok : tok = [] := hemp (by norm_num)
    constructor
    · intro e h; split at h <;> simp at h
    · intro t1 d1 tok1 st1 h
      split at h <;>
        (simp only [StepOut.cont.injEq] at h; obtain ⟨rfl, rfl, rfl, rfl⟩ := h)
      · exact ⟨hb, hlen, fun _ => htok,
          fun hx => absurd hx (by norm_num), ⟨[], by simp⟩⟩
      · refine ⟨hb, ?_, fun hx => absurd hx (by norm_num),
          fun hx => absurd hx (by norm_num), ⟨[], by simp⟩⟩
        rw [htok]
        simp only [List.nil_append, List.length_cons, List.length_nil,
          MILL_STATE_MAX]
        omega
  · -- state 7
    constructor
    · intro e h
      split at h
      · simp at h
      · simp only [StepOut.fail.injEq] at h; subst h; simp
    · intro t1 d1 tok1 st1 h
      split at h
      · simp only [StepOut.cont.injEq] at h
        obtain ⟨rfl, rfl, rfl, rfl⟩ := h
        exact ⟨hb, by decide, fun _ => rfl,
          fun hx => absurd hx (by norm_num), ⟨[], by simp⟩⟩
      · simp at h
  · -- state 8
    have htok : tok = [] := hemp (by norm_num)
    constructor
    · intro e h; split at h <;> simp at h
    · intro t1 d1 tok1 st1 h
      split at h <;>
        (simp only [StepOut.cont.injEq] at h; obtain ⟨rfl, rfl, rfl, rfl⟩ := h)
      · exact ⟨hb, hlen, fun _ => htok,
          fun hx => absurd hx (by norm_num), ⟨[], by simp⟩⟩
      · refine ⟨hb, ?_, fun hx => absurd hx (by norm_num),
          fun hx => absurd hx (by norm_num), ⟨[], by simp⟩⟩
        rw [htok]
        simp only [List.nil_append, List.length_cons, List.length_nil,
          MILL_STATE_MAX]
        omega
  · -- state 9
    constructor
    · intro e h
      split at h
      · split at h
        · simp only [StepOut.fail.injEq] at h; subst h; simp
        · simp at h
      · split at h
        · simp only [StepOut.fail.injEq] at h; subst h; simp
        · split at h
          · split at h
            · simp only [StepOut.fail.injEq] at h; subst h; simp
            · simp at h
          · simp at h
    · intro t1 d1 tok1 st1 h
      split at h
      · split at h
        · simp at h
        · rename_i m hm
          simp only [StepOut.cont.injEq] at h
          obtain ⟨rfl, rfl, rfl, rfl⟩ := h
          exact ⟨hb, by decide, fun _ => rfl,
            fun _ => parse_headmove_valid tok m hm, ⟨[], by simp⟩⟩
      · split at h
        · simp at h
        · split at h
          · split at h
            · simp at h
            · rename_i m hm
              simp only [StepOut.cont.injEq] at h
              obtain ⟨rfl, rfl, rfl, rfl⟩ := h
              refine ⟨hb, ?_, fun hx => absurd hx (by norm_num),
                fun _ => parse_headmove_valid tok.dropLast m hm,
                ⟨[], by simp⟩⟩
              rw [List.length_dropLast]
              omega
          · rename_i hsp hlong hsl
            simp only [StepOut.cont.injEq] at h
            obtain ⟨rfl, rfl, rfl, rfl⟩ := h
            refine ⟨hb, ?_, fun hx => absurd hx (by norm_num),
              fun hx => absurd hx (by norm_num), ⟨[], by simp⟩⟩
            simp only [List.length_append, List.length_cons, List.length_nil]
            simp only [MILL_STATE_MAX] at hlong ⊢
            omega
  · -- state 10
    have htok : tok = [] := hemp (by norm_num)
    have hm10 : d.move = 76 ∨ d.move = 82 := hmv (by norm_num)
    constructor
    · intro e h
      split at h
      · simp at h
      · split at h
        · simp at h
        · split at h
          · simp at h
          · simp only [StepOut.fail.injEq] at h; subst h; simp
    · intro t1 d1 tok1 st1 h
      split at h
      · simp only [StepOut.cont.injEq] at h
        obtain ⟨rfl, rfl, rfl, rfl⟩ := h
        exact ⟨hb, hlen, fun hx => absurd hx (by norm_num),
          fun _ => hm10, ⟨[], by simp⟩⟩
      · split at h
        · simp only [StepOut.cont.injEq] at h
          obtain ⟨rfl, rfl, rfl, rfl⟩ := h
          refine ⟨hb, ?_, fun hx => absurd hx (by norm_num),
            fun _ => hm10, ⟨[], by simp⟩⟩
          rw [htok]
          simp only [List.nil_append, List.length_cons, List.length_nil,
            MILL_STATE_MAX]
          omega
        · split at h
          · simp only [StepOut.cont.injEq] at h
            obtain ⟨rfl, rfl, rfl, rfl⟩ := h
            exact ⟨hb, hlen, fun _ => htok, fun _ => hm10, ⟨[], by simp⟩⟩
          · simp at h
  · -- state 11
    have hm11 : d.move = 76 ∨ d.move = 82 := hmv (by norm_num)
    constructor
    · intro e h
      split at h
      · simp at h
      · simp only [StepOut.fail.injEq] at h; subst h; simp
    · intro t1 d1 tok1 st1 h
      split at h
      · simp only [StepOut.cont.injEq] at h
        obtain ⟨rfl, rfl, rfl, rfl⟩ := h
        exact ⟨hb, hlen, fun hx => absurd hx (by norm_num),
          fun _ => hm11, ⟨[], by simp⟩⟩
      · simp at h
  · -- state 12
    have hm12 : d.move = 76 ∨ d.move = 82 := hmv (by norm_num)
    constructor
    · intro e h; split at h <;> simp at h
    · intro t1 d1 tok1 st1 h
      split at h <;>
        (simp only [StepOut.cont.injEq] at h; obtain ⟨rfl, rfl, rfl, rfl⟩ := h)
      · exact ⟨hb, hlen, fun hx => absurd hx (by norm_num),
          fun _ => hm12, ⟨[], by simp⟩⟩
      · exact ⟨hb, hlen, fun hx => absurd hx (by norm_num),
          fun _ => hm12, ⟨[], by simp⟩⟩
  · -- state 20
    have htok : tok = [] := hemp (by norm_num)
    constructor
    · intro e h; split at h <;> simp at h
    · intro t1 d1 tok1 st1 h
      split at h <;>
        (simp only [StepOut.cont.injEq] at h; obtain ⟨rfl, rfl, rfl, rfl⟩ := h)
      · exact ⟨hb, hlen, fun _ => htok,
          fun hx => absurd hx (by norm_num), ⟨[], by simp⟩⟩
      · exact ⟨hb, hlen, fun _ => htok,
          fun hx => absurd hx (by norm_num), ⟨[], by simp⟩⟩
  · -- default state
    constructor
    · intro e h
      simp only [StepOut.fail.injEq] at h
      subst h
      simp
    · intro t1 d1 tok1 st1 h
      simp at h

theorem parse_instr_end_props (t : SymTable) (d : MillInstr)
    (tok : List Nat) (st : Nat) (hmv : MoveOK st d) :
    (∀ e, parse_instr_end t d tok st = .perr e → e ≠ .bufferExhausted) ∧
    (∀ t1, instrOutTable (parse_instr_end t d tok st) = some t1 → t1 = t) ∧
    (∀ i t1 rest, parse_instr_end t d tok st = .one i t1 rest →
      i.move = 76 ∨ i.move = 82) := by
  unfold parse_instr_end
  refine ⟨?_, ?_, ?_⟩
  · intro e h
    split at h
    · simp at h
    · split at h
      · simp only [InstrOut.perr.injEq] at h; subst h; simp
      · split at h
        · split at h
          · simp only [InstrOut.perr.injEq] at h; subst h; simp
          · simp at h
        · split at h
          · simp only [InstrOut.perr.injEq] at h; subst h; simp
          · split at h
            · simp at h
            · simp only [InstrOut.perr.injEq] at h; subst h; simp
  · intro t1 h
    split at h
    · simp only [instrOutTable, Option.some.injEq] at h; exact h.symm
    · split at h
      · simp [instrOutTable] at h
      · split at h
        · split at h
          · simp [instrOutTable] at h
          · simp only [instrOutTable, Option.some.injEq] at h; exact h.symm
        · split at h
          · simp [instrOutTable] at h
          · split at h
            · simp only [instrOutTable, Option.some.injEq] at h
              exact h.symm
            · simp [instrOutTable] at h
  · intro i t1 rest h
    split at h
    · simp at h
    · split at h
      · simp at h
      · split at h
        · split at h
          · simp at h
          · rename_i m hm
            simp only [InstrOut.one.injEq] at h
            obtain ⟨h1, h2, h3⟩ := h
            rw [← h1]
            exact parse_headmove_valid tok m hm
        · split at h
          · simp at h
          · split at h
            · rename_i hguard
              simp only [InstrOut.one.injEq] at h
              obtain ⟨h1, h2, h3⟩ := h
              rw [← h1]
              exact hmv (by tauto)
            · simp at h

theorem parse_instr_loop_props : ∀ (input : List Nat) (t : SymTable)
    (d : MillInstr) (tok : List Nat) (st : Nat),
    SymTableBound t → tok.length ≤ MILL_STATE_MAX → TokEmpty st tok →
    MoveOK st d →
    (∀ e, parse_instr_loop t d tok st input = .perr e →
      e ≠ .bufferExhausted) ∧
    (∀ t1, instrOutTable (parse_instr_loop t d tok st input) = some t1 →
      SymTableBound t1 ∧ ∃ r, t1.symbols = t.symbols ++ r) ∧
    (∀ i t1 rest, parse_instr_loop t d tok st input = .one i t1 rest →
      i.move = 76 ∨ i.move = 82) := by
  intro input
  induction input with
  | nil =>
    intro t d tok st hb hlen hemp hmv
    by_cases hst : st = 100
    · subst hst
      have heq : parse_instr_loop t d tok 100 [] = .one d t [] := rfl
      refine ⟨?_, ?_, ?_⟩
      · intro e h; rw [heq] at h; simp at h
      · intro t1 h
        rw [heq] at h
        simp only [instrOutTable, Option.some.injEq] at h
        subst h
        exact ⟨hb, ⟨[], by simp⟩⟩
      · intro i t1 rest h
        rw [heq] at h
        simp only [InstrOut.one.injEq] at h
        rw [← h.1]
        exact hmv (by norm_num)
    · have heq : parse_instr_loop t d tok st [] = parse_instr_end t d tok st := by
        rw [parse_instr_loop, if_neg hst]
      obtain ⟨e1, e2, e3⟩ := parse_instr_end_props t d tok st hmv
      refine ⟨?_, ?_, ?_⟩
      · intro e h; rw [heq] at h; exact e1 e h
      · intro t1 h
        rw [heq] at h
        rw [e2 t1 h]
        exact ⟨hb, ⟨[], by simp⟩⟩
      · intro i t1 rest h; rw [heq] at h; exact e3 i t1 rest h
  | cons c rest ih =>
    intro t d tok st hb hlen hemp hmv
    by_cases hst : st = 100
    · subst hst
      have heq : parse_instr_loop t d tok 100 (c :: rest) =
          .one d t (c :: rest) := rfl
      refine ⟨?_, ?_, ?_⟩
      · intro e h; rw [heq] at h; simp at h
      · intro t1 h
        rw [heq] at h
        simp only [instrOutTable, Option.some.injEq] at h
        subst h
        exact ⟨hb, ⟨[], by simp⟩⟩
      · intro i t1 r2 h
        rw [heq] at h
        simp only [InstrOut.one.injEq] at h
        rw [← h.1]
        exact hmv (by norm_num)
    · obtain ⟨s1, s2⟩ := parse_instr_step_props t d tok st c hb hlen hemp hmv
      cases hstep : parse_instr_step t d tok st c with
      | fail e0 =>
        have heq : parse_instr_loop t d tok st (c :: rest) = .perr e0 := by
          rw [parse_instr_loop, if_neg hst, hstep]
        refine ⟨?_, ?_, ?_⟩
        · intro e h
          rw [heq] at h
          simp only [InstrOut.perr.injEq] at h
          subst h
          exact s1 e0 hstep
        · intro t1 h; rw [heq] at h; simp [instrOutTable] at h
        · intro i t1 r2 h; rw [heq] at h; simp at h
      | cont t2 d2 tok2 st2 =>
        have heq : parse_instr_loop t d tok st (c :: rest) =
            parse_instr_loop t2 d2 tok2 st2 rest := by
          rw [parse_instr_loop, if_neg hst, hstep]
        obtain ⟨hb2, hlen2, hemp2, hmv2, r0, hr0⟩ := s2 t2 d2 tok2 st2 hstep
        obtain ⟨i1, i2, i3⟩ := ih t2 d2 tok2 st2 hb2 hlen2 hemp2 hmv2
        refine ⟨?_, ?_, ?_⟩
        · intro e h; rw [heq] at h; exact i1 e h
        · intro t1 h
          rw [heq] at h
          obtain ⟨hb1, r1, hr1⟩ := i2 t1 h
          exact ⟨hb1, ⟨r0 ++ r1, by rw [hr1, hr0, List.append_assoc]⟩⟩
        · intro i t1 r2 h; rw [heq] at h; exact i3 i t1 r2 h

theorem parse_program_loop_props : ∀ (fuel : Nat) (t : SymTable)
    (acc : List MillInstr) (input : List Nat), SymTableBound t →
    (∀ e, parse_program_loop t acc input fuel = .error e →
      e ≠ .bufferExhausted) ∧
    (∀ t1 l, parse_program_loop t acc input fuel = .ok (t1, l) →
      SymTableBound t1 ∧ (∃ r, t1.symbols = t.symbols ++ r) ∧
      ∀ i, i ∈ l → i ∈ acc ∨ (i.move = 76 ∨ i.move = 82)) := by
  intro fuel
  induction fuel with
  | zero =>
    intro t acc input hb
    constructor
    · intro e h
      simp only [parse_program_loop, Except.error.injEq] at h
      subst h
      simp
    · intro t1 l h; simp [parse_program_loop] at h
  | succ fuel ih =>
    intro t acc input hb
    obtain ⟨l1, l2, l3⟩ := parse_instr_loop_props input t ⟨0, 0, 0, 0, 0⟩ [] 0
      hb (by decide) (fun _ => rfl) (fun hx => absurd hx (by norm_num))
    cases hil : parse_instr_loop t ⟨0, 0, 0, 0, 0⟩ [] 0 input with
    | perr e0 =>
      have heq : parse_program_loop t acc input (fuel + 1) = .error e0 := by
        simp only [parse_program_loop, hil]
      refine ⟨?_, ?_⟩
      · intro e h
        rw [heq] at h
        simp only [Except.error.injEq] at h
        subst h
        exact l1 e0 hil
      · intro t1 l h; rw [heq] at h; simp at h
    | done t2 =>
      have heq : parse_program_loop t acc input (fuel + 1) = .ok (t2, acc) := by
        simp only [parse_program_loop, hil]
      refine ⟨?_, ?_⟩
      · intro e h; rw [heq] at h; simp at h
      · intro t1 l h
        rw [heq] at h
        simp only [Except.ok.injEq, Prod.mk.injEq] at h
        obtain ⟨h1, h2⟩ := h
        subst h1
        subst h2
        have h3 := l2 t2 (by rw [hil]; rfl)
        exact ⟨h3.1, h3.2, fun i hi => Or.inl hi⟩
    | one i0 t2 r2 =>
      have hmv0 : i0.move = 76 ∨ i0.move = 82 := l3 i0 t2 r2 hil
      have htab := l2 t2 (by rw [hil]; rfl)
      by_cases hmax : MILL_INSTR_MAX ≤ acc.length
      · have heq : parse_program_loop t acc input (fuel + 1) =
            .error .tooManyInstructions := by
          simp only [parse_program_loop, hil]
          rw [if_pos hmax]
        refine ⟨?_, ?_⟩
        · intro e h
          rw [heq] at h
          simp only [Except.error.injEq] at h
          subst h
          simp
        · intro t1 l h; rw [heq] at h; simp at h
      · have heq : parse_program_loop t acc input (fuel + 1) =
            parse_program_loop t2 (acc ++ [i0]) r2 fuel := by
          simp only [parse_program_loop, hil]
          rw [if_neg hmax]
        obtain ⟨p1, p2⟩ := ih t2 (acc ++ [i0]) r2 htab.1
        refine ⟨?_, ?_⟩
        · intro e h; rw [heq] at h; exact p1 e h
        · intro t1 l h
          rw [heq] at h
          obtain ⟨hb1, ⟨r1, hr1⟩, hmoves⟩ := p2 t1 l h
          refine ⟨hb1, ?_, ?_⟩
          · obtain ⟨r0, hr0⟩ := htab.2
            exact ⟨r0 ++ r1, by rw [hr1, hr0, List.append_assoc]⟩
          · intro i hi
            rcases hmoves i hi with hacc | hok
            · rcases List.mem_append.mp hacc with h2 | h2
              · exact Or.inl h2
              · simp only [List.mem_singleton] at h2
                subst h2
                exact Or.inr hmv0
            · exact Or.inr hok

theorem mill_parse_program_eq (input : List Nat) :
    mill_parse_program input =
      match parse_program_loop ⟨[[73, 78, 73, 84], [72, 65, 76, 84]], 10⟩ []
          input (input.length + 1) with
      | .error e => .error e
      | .ok (t3, instrs) => .ok ⟨t3, 0, 1, instrs⟩ := rfl

theorem parse_ok_shape (input : List Nat) (prog : MillProgram)
    (h : mill_parse_program input = .ok prog) :
    prog.syminit = 0 ∧ prog.symhalt = 1 ∧ SymTableBound prog.symtable ∧
    (∃ r, prog.symtable.symbols =
      [[73, 78, 73, 84], [72, 65, 76, 84]] ++ r) ∧
    (∀ i, i ∈ prog.instructions → i.move = 76 ∨ i.move = 82) := by
  rw [mill_parse_program_eq] at h
  obtain ⟨q1, q2⟩ := parse_program_loop_props (input.length + 1)
    ⟨[[73, 78, 73, 84], [72, 65, 76, 84]], 10⟩ [] input
    (by unfold SymTableBound; decide)
  cases hp : parse_program_loop ⟨[[73, 78, 73, 84], [72, 65, 76, 84]], 10⟩
      [] input (input.length + 1) with
  | error e => rw [hp] at h; simp at h
  | ok pr =>
    obtain ⟨t3, instrs⟩ := pr
    rw [hp] at h
    have h2 : (⟨t3, 0, 1, instrs⟩ : MillProgram) = prog := Except.ok.inj h
    subst h2
    obtain ⟨hb1, ⟨r, hr⟩, hmoves⟩ := q2 t3 instrs hp
    refine ⟨rfl, rfl, hb1, ⟨r, by rw [← hr]⟩, ?_⟩
    intro i hi
    rcases hmoves i hi with hacc | hok
    · simp at hacc
    · exact hok

theorem parse_no_bufex (input : List Nat) :
    isBufEx (mill_parse_program input) = false := by
  rw [mill_parse_program_eq]
  obtain ⟨q1, q2⟩ := parse_program_loop_props (input.length + 1)
    ⟨[[73, 78, 73, 84], [72, 65, 76, 84]], 10⟩ [] input
    (by unfold SymTableBound; decide)
  cases hp : parse_program_loop ⟨[[73, 78, 73, 84], [72, 65, 76, 84]], 10⟩
      [] input (input.length + 1) with
  | error e =>
    have hne := q1 e hp
    cases e with
    | bufferExhausted => exact absurd rfl hne
    | symbolLimit => rfl
    | symbolTooLong => rfl
    | invalidMove => rfl
    | expectingToken => rfl
    | unexpectedToken => rfl
    | invalidState => rfl
    | tooManyInstructions => rfl
    | outOfFuel => rfl
  | ok pr =>
    obtain ⟨t3, instrs⟩ := pr
    rfl

theorem lookup_reserved (r : List (List Nat)) :
    symtable_lookup ([[73, 78, 73, 84], [72, 65, 76, 84]] ++ r)
      [73, 78, 73, 84] = some 0 ∧
    symtable_lookup ([[73, 78, 73, 84], [72, 65, 76, 84]] ++ r)
      [72, 65, 76, 84] = some 1 := by
  constructor
  · rw [List.cons_append, symtable_lookup, if_pos rfl]
  · rw [List.cons_append, symtable_lookup, if_neg (by decide),
      List.cons_append, symtable_lookup, if_pos rfl]
    rfl

-- Helper lemmas: the two-instruction self-loop program prog2 never stops.

theorem prog2_iter_blank (buf : Nat → Nat) (pos : Nat) (hc : buf pos = 0) :
    mill_iter prog2 ⟨buf, pos, 0⟩ =
      .next ⟨writeTape buf pos 0, mill_move pos 82, 0⟩ := by
  simp [mill_iter, mill_find, prog2, hc, mill_move_ne pos 82]

theorem prog2_iter_a (buf : Nat → Nat) (pos : Nat) (hc : buf pos = 97) :
    mill_iter prog2 ⟨buf, pos, 0⟩ =
      .next ⟨writeTape buf pos 97, mill_move pos 82, 0⟩ := by
  simp [mill_iter, mill_find, prog2, hc, mill_move_ne pos 82]

theorem prog2_inv_steps : ∀ (k : Nat) (cfg : Config), cfg.state = 0 →
    (∀ i, cfg.buf i = 0 ∨ cfg.buf i = 97) →
    (mill_steps prog2 cfg k).isSome = true := by
  intro k
  induction k with
  | zero => intro cfg _ _; rfl
  | succ k ih =>
    intro cfg h1 h3
    obtain ⟨buf, pos, st⟩ := cfg
    replace h1 : st = 0 := h1
    subst h1
    rcases h3 pos with hc | hc
    · have hnext : iter_next prog2 ⟨buf, pos, 0⟩ =
          some ⟨writeTape buf pos 0, mill_move pos 82, 0⟩ := by
        unfold iter_next
        rw [prog2_iter_blank buf pos hc]
      simp only [mill_steps, hnext]
      refine ih _ rfl (fun i => ?_)
      show writeTape buf pos 0 i = 0 ∨ writeTape buf pos 0 i = 97
      unfold writeTape
      split
      · exact Or.inl rfl
      · exact h3 i
    · have hnext : iter_next prog2 ⟨buf, pos, 0⟩ =
          some ⟨writeTape buf pos 97, mill_move pos 82, 0⟩ := by
        unfold iter_next
        rw [prog2_iter_a buf pos hc]
      simp only [mill_steps, hnext]
      refine ih _ rfl (fun i => ?_)
      show writeTape buf pos 97 i = 0 ∨ writeTape buf pos 97 i = 97
      unfold writeTape
      split
      · exact Or.inr rfl
      · exact h3 i

-- Helper lemmas: blank cell counting.

theorem getD_default (L : List Nat) : ∀ i, L.length ≤ i → L.getD i 0 = 0 := by
  induction L with
  | nil => intro i _; cases i <;> rfl
  | cons a L ih =>
    intro i h
    cases i with
    | zero => simp at h
    | succ i => exact ih i (by simpa using h)

theorem read_tape_shape (line : List Nat) (tape : MillTape)
    (h : mill_read_tape line = some tape) :
    tape.buf = (fun i => (firstLine line).getD i 0) ∧ tape.pos = 0 := by
  cases line with
  | nil => simp [mill_read_tape] at h
  | cons a r =>
    simp only [mill_read_tape, Option.some.injEq] at h
    rw [← h]
    exact ⟨rfl, rfl⟩

theorem blank_init (line : List Nat) (tape : MillTape)
    (h : mill_read_tape line = some tape) :
    MILL_TAPE_SIZE ≤ blankCount tape.buf + (firstLine line).length := by
  obtain ⟨hbuf, hpos⟩ := read_tape_shape line tape h
  by_cases hL : MILL_TAPE_SIZE ≤ (firstLine line).length
  · omega
  · have hsub : Finset.Ico (firstLine line).length MILL_TAPE_SIZE ⊆
        (Finset.range MILL_TAPE_SIZE).filter (fun i => tape.buf i = 0) := by
      intro i hi
      simp only [Finset.mem_Ico] at hi
      simp only [Finset.mem_filter, Finset.mem_range]
      refine ⟨hi.2, ?_⟩
      rw [hbuf]
      exact getD_default (firstLine line) i hi.1
    have hcard := Finset.card_le_card hsub
    rw [Nat.card_Ico] at hcard
    unfold blankCount
    omega

theorem blank_step (prog : MillProgram) (cfg cfg1 : Config)
    (h : iter_next prog cfg = some cfg1) :
    blankCount cfg.buf ≤ blankCount cfg1.buf + 1 := by
  obtain ⟨k, ins, hf, hshape⟩ := mill_iter_next_shape prog cfg cfg1
    (iter_next_eq_next prog cfg cfg1 h)
  have hsub : (Finset.range MILL_TAPE_SIZE).filter (fun i => cfg.buf i = 0) ⊆
      insert cfg.pos ((Finset.range MILL_TAPE_SIZE).filter
        (fun i => cfg1.buf i = 0)) := by
    intro i hi
    simp only [Finset.mem_filter, Finset.mem_range] at hi
    by_cases hip : i = cfg.pos
    · rw [hip]; exact Finset.mem_insert_self _ _
    · apply Finset.mem_insert_of_mem
      simp only [Finset.mem_filter, Finset.mem_range]
      refine ⟨hi.1, ?_⟩
      rw [hshape]
      show writeTape cfg.buf cfg.pos ins.char_out i = 0
      unfold writeTape
      rw [if_neg hip]
      exact hi.2
  have h1 := Finset.card_le_card hsub
  have h2 := Finset.card_insert_le cfg.pos
    ((Finset.range MILL_TAPE_SIZE).filter (fun i => cfg1.buf i = 0))
  unfold blankCount
  omega

theorem blank_run (prog : MillProgram) : ∀ (k : Nat) (cfg cfg2 : Config),
    mill_steps prog cfg k = some cfg2 →
    blankCount cfg.buf ≤ blankCount cfg2.buf + k := by
  intro k
  induction k with
  | zero =>
    intro cfg cfg2 h
    simp only [mill_steps, Option.some.injEq] at h
    subst h
    omega
  | succ k ih =>
    intro cfg cfg2 h
    simp only [mill_steps] at h
    cases hi : iter_next prog cfg with
    | none => rw [hi] at h; simp at h
    | some cfg1 =>
      rw [hi] at h
      have h1 := blank_step prog cfg cfg1 hi
      have h2 := ih cfg1 cfg2 h
      omega

-- Helper lemmas: the two-step run of prog9 on the almost-full tape.

theorem prog9_iter_gen0 (buf : Nat → Nat) (hc : buf 0 = 97) :
    mill_iter prog9 ⟨buf, 0, 0⟩ = .next ⟨writeTape buf 0 98, 1048575, 0⟩ := by
  simp [mill_iter, mill_find, prog9, hc, mill_move, MILL_TAPE_SIZE]

theorem prog9_iter_gen1 (buf : Nat → Nat) (hc : buf 1048575 = 0) :
    mill_iter prog9 ⟨buf, 1048575, 0⟩ =
      .stop .Halted (writeTape buf 1048575 99) 0 := by
  simp [mill_iter, mill_find, prog9, hc, mill_move, MILL_TAPE_SIZE]

theorem prog9_iter0 : mill_iter prog9 (initCfg prog9 tape9) =
    .next ⟨writeTape tape9.buf 0 98, 1048575, 0⟩ :=
  prog9_iter_gen0 tape9.buf (by rw [buf9_eq]; norm_num)

theorem prog9_iter1 :
    mill_iter prog9 ⟨writeTape tape9.buf 0 98, 1048575, 0⟩ =
      .stop .Halted (writeTape (writeTape tape9.buf 0 98) 1048575 99) 0 :=
  prog9_iter_gen1 (writeTape tape9.buf 0 98) (by
    unfold writeTape
    rw [if_neg (by norm_num), buf9_eq]
    norm_num)

theorem prog9_run : mill_run prog9 tape9 =
    ⟨.Halted, 2, ⟨writeTape (writeTape tape9.buf 0 98) 1048575 99, 0⟩⟩ := by
  have h1 : mill_steps prog9 (initCfg prog9 tape9) 1 =
      some ⟨writeTape tape9.buf 0 98, 1048575, 0⟩ := by
    simp only [mill_steps, iter_next, prog9_iter0]
  have h2 := run_loop_of_steps prog9 1 (initCfg prog9 tape9)
    ⟨writeTape tape9.buf 0 98, 1048575, 0⟩ 0 (MILL_STEPS_MAX - 1) h1
  unfold mill_run
  rw [show MILL_STEPS_MAX = 1 + (MILL_STEPS_MAX - 1) by decide]
  rw [h2]
  rw [show MILL_STEPS_MAX - 1 = 999998 + 1 by decide]
  rw [mill_run_loop_succ, prog9_iter1]

theorem prog9_full (i : Nat) (hi : i < MILL_TAPE_SIZE) :
    writeTape (writeTape tape9.buf 0 98) 1048575 99 i ≠ 0 := by
  unfold writeTape
  by_cases h1 : i = 1048575
  · rw [if_pos h1]; norm_num
  · rw [if_neg h1]
    by_cases h2 : i = 0
    · rw [if_pos h2]; norm_num
    · rw [if_neg h2, buf9_eq]
      have hlt : i < 1048575 := by
        simp only [MILL_TAPE_SIZE] at hi
        omega
      rw [if_pos hlt]
      norm_num

-- Helper lemmas: scenario 4 (write a blank, move left, halt, render empty).

theorem prog4_run : mill_run prog4 tape_a =
    ⟨.Halted, 1, ⟨writeTape tape_a.buf 0 0, 1048575⟩⟩ := rfl

theorem tape_a_blank_after (i : Nat) : writeTape tape_a.buf 0 0 i = 0 := by
  unfold writeTape
  split
  · rfl
  · rename_i h
    show (firstLine [97]).getD i 0 = 0
    rw [show firstLine [97] = [97] from rfl]
    exact getD_default [97] i
      (by rw [show ([97] : List Nat).length = 1 from rfl]; omega)

-- The claims.

/-- Claim C1: end-to-end Scenario 1.  For the program text INIT a HALT b R
and the tape text a (no trailing terminator), after load cell 0 holds a
(97); the engine in state INIT reads a, writes b, moves right to position
1, enters HALT and terminates with the Halted outcome after exactly 1 step;
rendering the final tape outputs b followed by a newline ([98, 10]). -/
theorem mill_c1_scenario1 :
    mill_parse_program txt1 = .ok prog1 ∧
    mill_read_tape [97] = some tape_a ∧
    tape_a.buf 0 = 97 ∧
    (mill_run prog1 tape_a).outcome = .Halted ∧
    (mill_run prog1 tape_a).steps = 1 ∧
    (mill_run prog1 tape_a).tape.pos = 1 ∧
    (mill_run prog1 tape_a).tape.buf 0 = 98 ∧
    mill_print_tape (mill_run prog1 tape_a).tape = [98, 10] :=
  ⟨rfl, rfl, rfl, rfl, rfl, rfl, rfl, rfl⟩

/-- Claim C2: first-match declaration-order priority.  The engine selects
instructions through mill_find (used by mill_iter at every step): when
mill_find returns index k, the instruction at k matches the current
(state, symbol) and no earlier instruction does; whenever some instruction
matches, mill_find returns an index no later than it; hence when an earlier
instruction at index i matches the same pair, a later index j is never
selected. -/
theorem mill_c2_first_match : ∀ (l : List MillInstr) (s c : Nat),
    (∀ k ins, mill_find l s c 0 = some (k, ins) →
      l.get? k = some ins ∧ ins.state_in = s ∧ ins.char_in = c ∧
      ∀ j, j < k → ∀ insj, l.get? j = some insj →
        ¬(insj.state_in = s ∧ insj.char_in = c)) ∧
    (∀ j insj, l.get? j = some insj → insj.state_in = s →
      insj.char_in = c →
      ∃ k ins, mill_find l s c 0 = some (k, ins) ∧ k ≤ j) ∧
    (∀ i j insi, i < j → l.get? i = some insi → insi.state_in = s →
      insi.char_in = c → ∀ res, mill_find l s c 0 = some res →
      res.1 ≠ j) := by
  intro l s c
  refine ⟨?_, ?_, ?_⟩
  · intro k ins h
    obtain ⟨d, hk, hget, hs, hc, hmin⟩ := mill_find_some_spec l s c 0 k ins h
    have hk2 : k = d := by omega
    subst hk2
    exact ⟨hget, hs, hc, hmin⟩
  · intro j insj hget hs hc
    obtain ⟨k, ins, hfind, hk⟩ := mill_find_complete l s c 0 j insj hget hs hc
    exact ⟨k, ins, hfind, by omega⟩
  · intro i j insi hij hget hs hc res hfind
    obtain ⟨k2, ins2⟩ := res
    obtain ⟨d, hk, hget2, hs2, hc2, hmin⟩ :=
      mill_find_some_spec l s c 0 k2 ins2 hfind
    intro hkj
    have hkj2 : k2 = j := hkj
    exact hmin i (by omega) insi hget ⟨hs, hc⟩

/-- Claim C2 witness: on the two-instruction list dupList, both matching
(INIT, a), the scan returns index 0 (insA) and never index 1. -/
theorem mill_c2_first_match_inst :
    mill_find dupList 0 97 0 = some (0, insA) ∧
    (dupList.get? 0 = some insA ∧ insA.state_in = 0 ∧ insA.char_in = 97 ∧
      ∀ j, j < 0 → ∀ insj, dupList.get? j = some insj →
        ¬(insj.state_in = 0 ∧ insj.char_in = 97)) ∧
    (∀ res, mill_find dupList 0 97 0 = some res → res.1 ≠ 1) :=
  ⟨rfl, (mill_c2_first_match dupList 0 97).1 0 insA rfl,
    fun res hres => (mill_c2_first_match dupList 0 97).2.2 0 1 insA
      (by omega) rfl rfl rfl res hres⟩

/-- Claim C3: the render algorithm.  The backward seam scan from index 0
stops at the first blank cell met (at most MILL_TAPE_SIZE steps); the
forward scan from the seam skips blanks to the first non-blank cell; the
output is the run from start to the next blank or the physical array end,
then, when start > 0 and cell 0 is non-blank, the run from index 0, then a
newline; and for Scenario 4 (program INIT a HALT _ L, tape a) the machine
halts after 1 step at position MILL_TAPE_SIZE - 1 with an entirely blank
buffer and rendering outputs just the newline rather than erroring. -/
theorem mill_c3_render :
    (∀ (buf : Nat → Nat) (k : Nat), k < MILL_TAPE_SIZE →
      buf ((MILL_TAPE_SIZE - 1) * k % MILL_TAPE_SIZE) = 0 →
      (∀ j, j < k → buf ((MILL_TAPE_SIZE - 1) * j % MILL_TAPE_SIZE) ≠ 0) →
      scanBack buf MILL_TAPE_SIZE 0 =
        (MILL_TAPE_SIZE - 1) * k % MILL_TAPE_SIZE) ∧
    (∀ (buf : Nat → Nat) (s k : Nat), s < MILL_TAPE_SIZE →
      k < MILL_TAPE_SIZE → buf ((s + k) % MILL_TAPE_SIZE) ≠ 0 →
      (∀ j, j < k → buf ((s + j) % MILL_TAPE_SIZE) = 0) →
      scanFwd buf MILL_TAPE_SIZE s = (s + k) % MILL_TAPE_SIZE) ∧
    (∀ tape : MillTape, mill_print_tape tape =
      emitFrom tape.buf
        (MILL_TAPE_SIZE - scanFwd tape.buf MILL_TAPE_SIZE
          (scanBack tape.buf MILL_TAPE_SIZE 0))
        (scanFwd tape.buf MILL_TAPE_SIZE (scanBack tape.buf MILL_TAPE_SIZE 0))
      ++ (if 0 < scanFwd tape.buf MILL_TAPE_SIZE
              (scanBack tape.buf MILL_TAPE_SIZE 0) ∧ tape.buf 0 ≠ 0
          then emitFrom tape.buf MILL_TAPE_SIZE 0 else []) ++ [10]) ∧
    (mill_parse_program txt4 = .ok prog4 ∧
      (mill_run prog4 tape_a).outcome = .Halted ∧
      (mill_run prog4 tape_a).steps = 1 ∧
      (mill_run prog4 tape_a).tape.pos = MILL_TAPE_SIZE - 1 ∧
      mill_print_tape (mill_run prog4 tape_a).tape = [10]) := by
  refine ⟨?_, ?_, ?_, rfl, rfl, rfl, rfl, ?_⟩
  · intro buf k hk hb hn
    have h2 := scanBack_first buf k MILL_TAPE_SIZE 0 (by decide) hk
      (by simpa using hb) (fun j hj => by simpa using hn j hj)
    simpa using h2
  · intro buf s k hs hk hb hn
    exact scanFwd_first buf k MILL_TAPE_SIZE s hs hk hb hn
  · intro tape
    rfl
  · exact print_allblank (mill_run prog4 tape_a).tape
      (fun i => tape_a_blank_after i)

/-- Claim C3 witness: on the buffer with a single written cell at index 0,
the backward seam scan stops at index MILL_TAPE_SIZE - 1 (taking one
backward step from the non-blank index 0). -/
theorem mill_c3_render_inst :
    bufw ((MILL_TAPE_SIZE - 1) * 1 % MILL_TAPE_SIZE) = 0 ∧
    scanBack bufw MILL_TAPE_SIZE 0 =
      (MILL_TAPE_SIZE - 1) * 1 % MILL_TAPE_SIZE :=
  ⟨by decide, (mill_c3_render).1 bufw 1 (by decide) (by decide)
    (fun j hj => by
      have hj0 : j = 0 := by omega
      subst hj0
      decide)⟩

/-- Claim C4: stall termination.  Whenever no instruction matches the
current (state, read symbol) pair after t completed steps (t below the
step cap), the run terminates with the Stalled outcome carrying exactly
that pair and reports step count t + 1; and at the single-iteration level
the code's detection (head position unchanged after the scan, pos = prev)
fires exactly when no instruction matched. -/
theorem mill_c4_stall :
    (∀ (prog : MillProgram) (tape : MillTape) (t : Nat) (cfg : Config),
      t < MILL_STEPS_MAX →
      mill_steps prog (initCfg prog tape) t = some cfg →
      mill_find prog.instructions cfg.state (cfg.buf cfg.pos) 0 = none →
      mill_run prog tape = ⟨.Stalled cfg.state (cfg.buf cfg.pos), t + 1,
        ⟨cfg.buf, cfg.pos⟩⟩) ∧
    (∀ (prog : MillProgram) (cfg : Config),
      (∃ s c b p, mill_iter prog cfg = .stop (.Stalled s c) b p) ↔
        mill_find prog.instructions cfg.state (cfg.buf cfg.pos) 0 = none) :=
  ⟨fun prog tape t cfg ht hs hf => run_stall prog tape t cfg ht hs hf,
   fun prog cfg => iter_stalled_iff prog cfg⟩

/-- Claim C4 witness: Scenario 2 — program INIT a HALT b R on tape x
stalls at step 0 with the unhandled pair (INIT, x) and step count 1. -/
theorem mill_c4_stall_inst :
    (0 < MILL_STEPS_MAX ∧
      mill_steps prog1 (initCfg prog1 tape_x) 0 =
        some (initCfg prog1 tape_x) ∧
      mill_find prog1.instructions (initCfg prog1 tape_x).state
        ((initCfg prog1 tape_x).buf (initCfg prog1 tape_x).pos) 0 = none) ∧
    mill_run prog1 tape_x =
      ⟨.Stalled (initCfg prog1 tape_x).state
        ((initCfg prog1 tape_x).buf (initCfg prog1 tape_x).pos), 0 + 1,
        ⟨(initCfg prog1 tape_x).buf, (initCfg prog1 tape_x).pos⟩⟩ :=
  ⟨⟨by decide, rfl, rfl⟩,
    (mill_c4_stall).1 prog1 tape_x 0 (initCfg prog1 tape_x)
      (by decide) rfl rfl⟩

/-- Claim C5 counterexample: the claim's example (spec Scenario 3) is
wrong on the code.  Program INIT a INIT a R on tape a does not time out:
after one step the head sits on a blank cell which no instruction matches,
so the run stalls with step count 2 (the Stalled outcome, not TimedOut). -/
theorem mill_c5_scenario3_stalls :
    mill_parse_program txt3 = .ok prog3 ∧
    mill_read_tape [97] = some tape_a ∧
    (mill_run prog3 tape_a).outcome = .Stalled 0 0 ∧
    (mill_run prog3 tape_a).steps = 2 :=
  ⟨rfl, rfl, rfl, rfl⟩

/-- Claim C5 (amended): timeout at the step cap.  For every program and
tape on which the engine completes MILL_STEPS_MAX = 1,000,000 steps
without halting, stalling or aborting, the run terminates with the
TimedOut outcome, the reported step count is exactly MILL_STEPS_MAX, and
the final tape contents and stored head position are those of the
configuration after the last completed step. -/
theorem mill_c5_timeout (prog : MillProgram) (tape : MillTape)
    (h : (mill_steps prog (initCfg prog tape) MILL_STEPS_MAX).isSome =
      true) :
    (mill_run prog tape).outcome = .TimedOut ∧
    (mill_run prog tape).steps = MILL_STEPS_MAX ∧
    (mill_steps prog (initCfg prog tape) MILL_STEPS_MAX).map
        (fun c => (c.buf, c.pos)) =
      some ((mill_run prog tape).tape.buf, (mill_run prog tape).tape.pos) := by
  obtain ⟨cfg2, hc⟩ := Option.isSome_iff_exists.mp h
  have hr := run_timeout_of_steps prog tape cfg2 hc
  rw [hr, hc]
  exact ⟨rfl, rfl, rfl⟩

/-- Claim C5 witness: the two-instruction program prog2 (INIT a INIT a R
and INIT _ INIT _ R) on tape a never stops, so it times out at the cap. -/
theorem mill_c5_timeout_inst :
    (mill_steps prog2 (initCfg prog2 tape_a) MILL_STEPS_MAX).isSome =
      true ∧
    ((mill_run prog2 tape_a).outcome = .TimedOut ∧
      (mill_run prog2 tape_a).steps = MILL_STEPS_MAX ∧
      (mill_steps prog2 (initCfg prog2 tape_a) MILL_STEPS_MAX).map
          (fun c => (c.buf, c.pos)) =
        some ((mill_run prog2 tape_a).tape.buf,
          (mill_run prog2 tape_a).tape.pos)) := by
  have hsome : (mill_steps prog2 (initCfg prog2 tape_a)
      MILL_STEPS_MAX).isSome = true := by
    apply prog2_inv_steps
    · rfl
    · intro i
      show (firstLine [97]).getD i 0 = 0 ∨ (firstLine [97]).getD i 0 = 97
      rw [show firstLine [97] = [97] from rfl]
      cases i with
      | zero => exact Or.inr rfl
      | succ j =>
        exact Or.inl (getD_default [97] (j + 1)
          (by rw [show ([97] : List Nat).length = 1 from rfl]; omega))
  exact ⟨hsome, mill_c5_timeout prog2 tape_a hsome⟩

/-- Claim C6: head wraparound.  The position update always lands in
[0, MILL_TAPE_SIZE); a left move (76) taken at position 0 lands on
MILL_TAPE_SIZE - 1; along every executed step sequence the position stays
in range, and so does the head position stored by a complete run. -/
theorem mill_c6_wraparound :
    (∀ pos move, mill_move pos move < MILL_TAPE_SIZE) ∧
    mill_move 0 76 = MILL_TAPE_SIZE - 1 ∧
    (∀ (prog : MillProgram) (cfg cfg2 : Config) (k : Nat),
      cfg.pos < MILL_TAPE_SIZE → mill_steps prog cfg k = some cfg2 →
      cfg2.pos < MILL_TAPE_SIZE) ∧
    (∀ (prog : MillProgram) (tape : MillTape), tape.pos < MILL_TAPE_SIZE →
      (mill_run prog tape).tape.pos < MILL_TAPE_SIZE) :=
  ⟨fun p m => mill_move_lt p m, by decide,
   fun prog cfg cfg2 k h hs => steps_pos prog k cfg cfg2 h hs,
   fun prog tape h =>
     run_loop_pos prog MILL_STEPS_MAX (initCfg prog tape) 0 h⟩

/-- Claim C6 witness: Scenario 1's run keeps the stored head position in
range. -/
theorem mill_c6_wraparound_inst :
    tape_a.pos < MILL_TAPE_SIZE ∧
    (mill_run prog1 tape_a).tape.pos < MILL_TAPE_SIZE :=
  ⟨by decide, (mill_c6_wraparound).2.2.2 prog1 tape_a (by decide)⟩

/-- Claim C7: interning idempotence and reserved ids.  Inserting a name
twice returns the same table and id; and for every program text whose
parse succeeds, INIT and HALT were pre-interned, so the program's reserved
ids are 0 and 1 and re-interning INIT resp. HALT into the final symbol
table returns id 0 resp. 1 without changing the table. -/
theorem mill_c7_interning :
    (∀ (t : SymTable) (s : List Nat) (t1 : SymTable) (i : Nat),
      symtable_insert t s = .ok (t1, i) →
      symtable_insert t1 s = .ok (t1, i)) ∧
    (∀ (input : List Nat) (prog : MillProgram),
      mill_parse_program input = .ok prog →
      prog.syminit = 0 ∧ prog.symhalt = 1 ∧
      symtable_insert prog.symtable [73, 78, 73, 84] =
        .ok (prog.symtable, 0) ∧
      symtable_insert prog.symtable [72, 65, 76, 84] =
        .ok (prog.symtable, 1)) := by
  constructor
  · exact insert_twice
  · intro input prog h
    obtain ⟨h0, h1, hb, ⟨r, hr⟩, hm⟩ := parse_ok_shape input prog h
    refine ⟨h0, h1, ?_, ?_⟩
    · unfold symtable_insert
      rw [hr, (lookup_reserved r).1]
    · unfold symtable_insert
      rw [hr, (lookup_reserved r).2]

/-- Claim C7 witness: inserting INIT twice into the empty table yields id
0 both times, and for the parsed Scenario 1 program re-interning INIT and
HALT returns ids 0 and 1. -/
theorem mill_c7_interning_inst :
    symtable_insert ⟨[], 0⟩ [73, 78, 73, 84] =
      .ok (⟨[[73, 78, 73, 84]], 5⟩, 0) ∧
    symtable_insert ⟨[[73, 78, 73, 84]], 5⟩ [73, 78, 73, 84] =
      .ok (⟨[[73, 78, 73, 84]], 5⟩, 0) ∧
    mill_parse_program txt1 = .ok prog1 ∧
    symtable_insert prog1.symtable [73, 78, 73, 84] =
      .ok (prog1.symtable, 0) ∧
    symtable_insert prog1.symtable [72, 65, 76, 84] =
      .ok (prog1.symtable, 1) := by
  refine ⟨rfl, ?_, rfl, ?_, ?_⟩
  · exact (mill_c7_interning).1 ⟨[], 0⟩ [73, 78, 73, 84]
      ⟨[[73, 78, 73, 84]], 5⟩ 0 rfl
  · exact ((mill_c7_interning).2 txt1 prog1 rfl).2.2.1
  · exact ((mill_c7_interning).2 txt1 prog1 rfl).2.2.2

/-- Claim C8: the defensive InvalidHeadMove branch is unreachable under
the parser.  Every instruction of a successfully parsed program has move
L (76) or R (82), and running such a program never produces the
InvalidHeadMove outcome, on any tape. -/
theorem mill_c8_no_invalid_move (input : List Nat) (prog : MillProgram)
    (h : mill_parse_program input = .ok prog) :
    (∀ ins, ins ∈ prog.instructions →
      ins.move = 76 ∨ ins.move = 82) ∧
    ∀ tape : MillTape, (mill_run prog tape).outcome ≠ .InvalidHeadMove := by
  obtain ⟨h0, h1, hb, hre, hm⟩ := parse_ok_shape input prog h
  exact ⟨hm, fun tape =>
    run_loop_no_invalid prog hm MILL_STEPS_MAX (initCfg prog tape) 0⟩

/-- Claim C8 witness: the parsed Scenario 1 program run on tape a does not
end with InvalidHeadMove. -/
theorem mill_c8_no_invalid_move_inst :
    mill_parse_program txt1 = .ok prog1 ∧
    (mill_run prog1 tape_a).outcome ≠ .InvalidHeadMove :=
  ⟨rfl, (mill_c8_no_invalid_move txt1 prog1 rfl).2 tape_a⟩

/-- Claim C9 counterexample: the buffer can lose its last blank cell
within the step cap.  Loading a tape line of MILL_TAPE_SIZE - 1 characters
and running the parsed program INIT a INIT b L / INIT _ HALT c R halts
after only 2 steps with no blank-sentinel cell anywhere in the
MILL_TAPE_SIZE-cell buffer, refuting the claim that at least one cell
always stays blank. -/
theorem mill_c9_all_written :
    mill_parse_program txt9 = .ok prog9 ∧
    mill_read_tape line9 = some tape9 ∧
    (mill_run prog9 tape9).outcome = .Halted ∧
    (mill_run prog9 tape9).steps = 2 ∧
    ¬∃ i, i < MILL_TAPE_SIZE ∧ (mill_run prog9 tape9).tape.buf i = 0 := by
  refine ⟨rfl, rfl, ?_, ?_, ?_⟩
  · rw [prog9_run]
  · rw [prog9_run]
  · rw [prog9_run]
    rintro ⟨i, hi, hz⟩
    exact prog9_full i hi hz

/-- Claim C9 (amended): bounded written region.  Each executed step writes
at most one cell, so after loading a tape line and completing k steps at
least MILL_TAPE_SIZE - k - len cells still hold the blank sentinel, where
len < MILL_TAPE_SIZE is the loaded line length; the step cap alone does
not keep a blank cell, since len may reach MILL_TAPE_SIZE - 1. -/
theorem mill_c9_blank_budget (prog : MillProgram) (line : List Nat)
    (tape : MillTape) (k : Nat) (cfg : Config)
    (hload : mill_read_tape line = some tape)
    (hsteps : mill_steps prog (initCfg prog tape) k = some cfg) :
    MILL_TAPE_SIZE ≤ blankCount cfg.buf + k + (firstLine line).length ∧
    (firstLine line).length < MILL_TAPE_SIZE := by
  have h1 := blank_init line tape hload
  have h2 := blank_run prog k (initCfg prog tape) cfg hsteps
  constructor
  · have h0 : blankCount (initCfg prog tape).buf = blankCount tape.buf := rfl
    omega
  · have h3 := firstLine_go_len line (MILL_TAPE_SIZE - 1)
    unfold firstLine
    have h4 : (0 : Nat) < MILL_TAPE_SIZE := by decide
    omega

/-- Claim C9 witness: after loading tape a and completing 0 steps, the
blank budget bound holds. -/
theorem mill_c9_blank_budget_inst :
    mill_read_tape [97] = some tape_a ∧
    mill_steps prog1 (initCfg prog1 tape_a) 0 =
      some (initCfg prog1 tape_a) ∧
    (MILL_TAPE_SIZE ≤ blankCount (initCfg prog1 tape_a).buf + 0 +
        (firstLine [97]).length ∧
      (firstLine [97]).length < MILL_TAPE_SIZE) :=
  ⟨rfl, rfl, mill_c9_blank_budget prog1 [97] tape_a 0
    (initCfg prog1 tape_a) rfl rfl⟩

/-- Claim C10: the symbols buffer exhausted failure is unreachable.  No
program text can make mill_parse_program return the bufferExhausted error
(the parser's token-length check keeps every interned name at most
MILL_STATE_MAX code points, so the character data buffer of
MILL_STATES_MAX * (MILL_STATE_MAX + 1) slots always has room); and in
general inserting a name of at most MILL_STATE_MAX code points into a
table satisfying the data-size invariant never fails with
bufferExhausted — only the table-limit error remains possible. -/
theorem mill_c10_buffer_safe :
    (∀ input : List Nat, isBufEx (mill_parse_program input) = false) ∧
    (∀ (t : SymTable) (s : List Nat), SymTableBound t →
      s.length ≤ MILL_STATE_MAX →
      isBufExIns (symtable_insert t s) = false) := by
  constructor
  · exact parse_no_bufex
  · intro t s hb hlen
    cases hi : symtable_insert t s with
    | error e =>
      have he := insert_err_kind t s e hb hlen hi
      subst he
      rfl
    | ok p => rfl

/-- Claim C10 witness: inserting INIT into the empty table satisfies the
invariant's hypotheses and does not fail with bufferExhausted. -/
theorem mill_c10_buffer_safe_inst :
    SymTableBound ⟨[], 0⟩ ∧
    ([73, 78, 73, 84] : List Nat).length ≤ MILL_STATE_MAX ∧
    isBufExIns (symtable_insert ⟨[], 0⟩ [73, 78, 73, 84]) = false :=
  ⟨by unfold SymTableBound; decide, by decide,
    (mill_c10_buffer_safe).2 ⟨[], 0⟩ [73, 78, 73, 84]
      (by unfold SymTableBound; decide) (by decide)⟩
